import Mathlib

/-!
Shallow embedding of the hydrobot quality-control engine
(`src/hydrobot/evaluator.py` and `src/hydrobot/data_sources.py`).

Conventions of the embedding:
* timestamps are naturals (seconds since an arbitrary epoch);
* numeric cells are rationals; a missing cell (pandas `NaN`) is `none`;
* a pandas `DataFrame` with columns `Value`, `Code`, `Details` is a list of
  `Row`s carrying the index label plus the three columns;
* functions that can raise in Python return `Except String`;
* `pd.DateOffset` arguments are abstracted as plain second counts added to a
  timestamp (the source's default dictionary uses calendar-month offsets,
  which are simply particular such shifts for concrete dates).
-/

namespace Hydrobot

/-- One row of a quality-code frame: the index label and the `Value`, `Code`
and `Details` columns; `none` models a NaN cell. -/
structure Row where
  time : ℕ
  value : Option ℚ
  code : Option String
  details : Option String
deriving DecidableEq, Repr

/-- A quality-code frame (`pd.DataFrame` indexed by time). -/
abbrev Frame := List Row

instance {ε α : Type} [DecidableEq ε] [DecidableEq α] : DecidableEq (Except ε α)
  | .ok a, .ok b =>
    if h : a = b then .isTrue (by rw [h]) else .isFalse (fun hc => h (Except.ok.inj hc))
  | .error e, .error f =>
    if h : e = f then .isTrue (by rw [h]) else .isFalse (fun hc => h (Except.error.inj hc))
  | .ok _, .error _ => .isFalse (fun hc => Except.noConfusion hc)
  | .error _, .ok _ => .isFalse (fun hc => Except.noConfusion hc)

/-- The logged series: (timestamp, value) pairs; `none` is a NaN sample. -/
abbrev Series := List (ℕ × Option ℚ)

/-- The check series: (timestamp, value) pairs; check values are numbers. -/
abbrev Checks := List (ℕ × ℚ)

/-- NaN-aware `<` as evaluated by numpy: a comparison against NaN is false. -/
def nanLt : Option ℚ → ℚ → Bool
  | some d, x => decide (d < x)
  | none, _ => false

/-- NaN-aware `>` as evaluated by numpy: a comparison against NaN is false. -/
def nanGt : Option ℚ → ℚ → Bool
  | some d, x => decide (x < d)
  | none, _ => false

/-- pandas element-wise `!=`: NaN compares unequal to everything, including
another NaN. -/
def neqPd : Option ℚ → Option ℚ → Bool
  | some a, some b => decide (a ≠ b)
  | _, _ => true

/-- `|a - b|` on timestamps, in seconds (`abs` of a timestamp difference). -/
def tdist (a b : ℕ) : Nat := max a b - min a b

/-- `pd.Timestamp.ceil("D")`: round a timestamp up to the next midnight
(a timestamp already on a day boundary is unchanged). -/
def ceilDay (t : ℕ) : ℕ := ((t + 86399) / 86400) * 86400

/-- `np.abs` on a rational (written out so that it evaluates). -/
def ratAbs (q : ℚ) : ℚ := if q < 0 then -q else q

/-- `np.abs(base - check)` with NaN propagation. -/
def absDiff : Option ℚ → Option ℚ → Option ℚ
  | some a, some b => some (ratAbs (a - b))
  | _, _ => none

/-- `data_sources.Measurement`: the flat grading model.  Thresholds:
`qc_500_limit` separates QC 400 from QC 500, `qc_600_limit` separates
QC 500 from QC 600.  (The cosmetic `name` field is omitted.) -/
structure Measurement where
  qc_500_limit : ℚ
  qc_600_limit : ℚ
deriving DecidableEq, Repr

/-- `Measurement.find_qc`: grade from `np.abs(base - check)` against the two
flat thresholds.  NaN inputs fall through both comparisons to 400. -/
def Measurement.find_qc (m : Measurement) (base_datum check_datum : Option ℚ) : ℚ :=
  let diff := absDiff base_datum check_datum
  if nanLt diff m.qc_600_limit then 600
  else if nanLt diff m.qc_500_limit then 500
  else 400

/-- `data_sources.TwoLevelMeasurement`: flat thresholds below
`limit_percent_threshold`, percentage thresholds at or above it.
(The cosmetic `name` field is omitted.) -/
structure TwoLevelMeasurement where
  qc_500_limit : ℚ
  qc_600_limit : ℚ
  qc_500_percent : ℚ
  qc_600_percent : ℚ
  limit_percent_threshold : ℚ
deriving DecidableEq, Repr

/-- `TwoLevelMeasurement.find_qc`: the source tests
`base_datum < self.limit_percent_threshold` (the signed value, not its
magnitude) to choose the tier. -/
def TwoLevelMeasurement.find_qc (m : TwoLevelMeasurement) (base_datum check_datum : ℚ) : ℚ :=
  if base_datum < m.limit_percent_threshold then
    let diff := ratAbs (base_datum - check_datum)
    if diff < m.qc_600_limit then 600
    else if diff < m.qc_500_limit then 500
    else 400
  else
    let diff := ratAbs (base_datum / check_datum - 1) * 100
    if diff < m.qc_600_percent then 600
    else if diff < m.qc_500_percent then 500
    else 400

/-- Is the sample at position `i` missing (`pd.isna`)?  Out-of-range
positions count as present. -/
def isna (l : List (Option ℚ)) (i : Nat) : Bool :=
  match l.get? i with
  | some none => true
  | _ => false

/-- Position `i` of `np.r_[True, np.diff(pd.isna(data)) != 0, True]` is true:
either an end of the array or a change point of the is-missing mask. -/
def isBreak (l : List (Option ℚ)) (i : Nat) : Bool :=
  i = 0 || i = l.length || (isna l (i - 1) != isna l i)

/-- `idx0 = np.flatnonzero(np.r_[True, np.diff(pd.isna(data)) != 0, True])`:
the ascending list of mask change points, ends included. -/
def breakIdx (l : List (Option ℚ)) : List Nat :=
  (List.range (l.length + 1)).filter (fun i => isBreak l i)

/-- `evaluator.gap_finder`, positionally: consecutive change points delimit
constant blocks of the is-missing mask; blocks starting at a missing sample
are reported as `(start position, length, strict := true)`.  (The source
returns the index label of the start; callers recover the position with
`get_loc`, so the embedding works with positions throughout.  The source
raises on an empty series; here the empty list yields `[]`.) -/
def gap_finder (l : List (Option ℚ)) : List (Nat × Nat × Bool) :=
  (((breakIdx l).zip (breakIdx l).tail).filter (fun p => isna l p.1)).map
    (fun p => (p.1, p.2 - p.1, true))

/-- Ordering of frame rows by index label, as used by `sort_index`. -/
def rowLe (a b : Row) : Prop := a.time ≤ b.time

instance : DecidableRel rowLe := fun a b => Nat.decLe a.time b.time

instance : IsTotal Row rowLe := ⟨fun a b => Nat.le_total a.time b.time⟩

instance : IsTrans Row rowLe := ⟨fun _ _ _ h h2 => Nat.le_trans h h2⟩

/-- `DataFrame.sort_index()` (ties between equal labels are ordered
deterministically here; the source's sort kind leaves them unspecified). -/
def sortFrame (f : Frame) : Frame := f.insertionSort rowLe

/-- `frame.loc[t] = row`: overwrite the rows labelled `t` if the label is
present, otherwise append a new row at the end. -/
def locSetRow (f : Frame) (r : Row) : Frame :=
  if f.any (fun x => x.time = r.time) then
    f.map (fun x => if x.time = r.time then r else x)
  else f ++ [r]

/-- `frame.shift(periods=-1)`: values move up one position, the index stays,
the last row becomes all-NaN. -/
def shiftUpRows (f : Frame) : Frame :=
  (f.zip f.tail).map (fun p => ⟨p.1.time, p.2.value, p.2.code, p.2.details⟩)
    ++ (match f.getLast? with
        | some r => [⟨r.time, none, none, none⟩]
        | none => [])

/-- `frame.loc[frame.index[-1], "Value"] = v`: set the `Value` of every row
labelled like the last row.  (On an empty frame the source raises; the
embedding leaves it unchanged, a case no claim exercises.) -/
def setLastValue (f : Frame) (v : Option ℚ) : Frame :=
  match f.getLast? with
  | none => f
  | some r => f.map (fun x => if x.time = r.time then { x with value := v } else x)

/-- `series[t]`: label lookup of a value in the logged series (first match;
only called on labels known to be present). -/
def lookupVal (s : Series) (t : ℕ) : Option ℚ :=
  match s.find? (fun p => p.1 = t) with
  | some p => p.2
  | none => none

/-- The timestamps of the non-missing samples (`series.dropna().index`),
in series order. -/
def validTimes (s : Series) : List ℕ :=
  (s.filter (fun p => p.2.isSome)).map Prod.fst

/-- `index.get_indexer([dt], method="nearest")` over an ascending list:
the closest element, ties resolved to the later one (pandas keeps the left
neighbour only when it is strictly closer). -/
def nearestIn (dt : ℕ) (ts : List ℕ) : Option ℕ :=
  ts.foldl
    (fun acc s =>
      match acc with
      | none => some s
      | some b => if tdist s dt ≤ tdist b dt then some s else some b)
    none

/-- `evaluator.find_nearest_valid_time`: range-check `dt` against the raw
first/last timestamps, then search only the non-missing samples. -/
def find_nearest_valid_time (s : Series) (dt : ℕ) : Except String ℕ :=
  match s with
  | [] => .error "IndexError"
  | p :: ps =>
    let first_timestamp := p.1
    let last_timestamp := (ps.getLastD p).1
    if dt < first_timestamp || last_timestamp < dt then
      .error "Timestamp not within data range"
    else
      match nearestIn dt (validTimes (p :: ps)) with
      | some r => .ok r
      | none => .error "IndexError"

/-- The `Details` text written for a check comparison. -/
def chkDetail (ct adjusted : ℕ) : String :=
  "Check value at " ++ toString ct ++ " used to validate data value at "
    ++ toString adjusted ++ "."

/-- The body of the per-check loop of `check_data_quality_code`: match the
check to the nearest valid logged sample, then grade it (200 when the match
is `gap_limit` seconds or more away, the grading model's answer otherwise). -/
def checkRow (series : Series) (ev : Measurement) (gap_limit : Nat) (c : ℕ × ℚ) :
    Except String Row := do
  let adjusted ← find_nearest_valid_time series c.1
  let qc : ℚ :=
    if tdist adjusted c.1 < gap_limit then
      ev.find_qc (lookupVal series adjusted) (some c.2)
    else 200
  pure ⟨c.1, some qc, some "CHK", some (chkDetail c.1 adjusted)⟩

/-- The per-check loop of `check_data_quality_code`: grade each check in
order and store its row at its timestamp. -/
def checkFold (series : Series) (ev : Measurement) (gap_limit : Nat) :
    Frame → Checks → Except String Frame
  | f, [] => pure f
  | f, ch :: rest => do
    let r ← checkRow series ev gap_limit ch
    checkFold series ev gap_limit (locSetRow f r) rest

/-- Specification-side list of the per-check rows, in check order. -/
def checkRows (series : Series) (ev : Measurement) (gl : Nat) :
    Checks → Except String (List Row)
  | [] => pure []
  | c :: cs => do
    let r ← checkRow series ev gl c
    let rs ← checkRows series ev gl cs
    pure (r :: rs)

/-- `evaluator.check_data_quality_code`: range-check the check series, grade
every check, then `shift(periods=-1)` and force the last `Value` to 0.
An empty check series yields the one-row all-NaN frame (plus a warning). -/
def check_data_quality_code (series : Series) (check_series : Checks)
    (ev : Measurement) (gap_limit : Nat := 10800) : Except String Frame :=
  match series with
  | [] => .error "IndexError"
  | p :: ps =>
    let first_data_date := p.1
    let last_data_date := (ps.getLastD p).1
    match check_series with
    | [] => .ok [⟨first_data_date, none, none, none⟩]
    | c :: cs =>
      let first_check_date := c.1
      let last_check_date := (cs.getLastD c).1
      if first_check_date < first_data_date || last_data_date < last_check_date then
        .error "check data out of range"
      else do
        let qc_frame ← checkFold (p :: ps) ev gap_limit
          ([⟨first_data_date, none, none, none⟩] : Frame) (c :: cs)
        pure (setLastValue (shiftUpRows qc_frame) (some 0))

/-- `std_series.index[i]` by position (only used at in-range positions). -/
def stdTime (std : Series) (i : Nat) : ℕ := ((std.get? i).getD (0, none)).1

/-- One iteration of the gap loop of `missing_data_quality_code`: for a gap
longer than `gap_limit` samples, restore the prior >100 grade at the first
sample after the gap, drop every record strictly inside the gap, and insert
the grade-100 `GAP` record at the gap start.  The `Details` of the `GAP`
record reads `std_series.index[end_idx]`, which raises when the gap runs to
the end of the series. -/
def processGap (std : Series) (gap_limit : Nat) (qc0 : Frame) (g : Nat × Nat × Bool) :
    Except String Frame :=
  if gap_limit < g.2.1 then do
    let end_idx := g.1 + g.2.1
    let gapStart : ℕ := stdTime std g.1
    let qc1 ←
      if end_idx < std.length then
        let rt := stdTime std end_idx
        let prev := sortFrame
          ((qc0.filter (fun x => x.time ≤ rt)).filter (fun x => nanGt x.value 100))
        match prev.getLast? with
        | none => Except.error "IndexError"
        | some pr =>
          pure (sortFrame (locSetRow qc0
            ⟨rt, pr.value, pr.code,
              some ("End of gap. Returning to QC code assigned at " ++ toString pr.time)⟩))
      else pure qc0
    let lastInGap : ℕ := stdTime std (end_idx - 1)
    let qc2 := qc1.filter
      (fun x => !(decide (gapStart < x.time) && decide (x.time ≤ lastInGap)))
    if end_idx < std.length then
      pure (sortFrame (locSetRow qc2
        ⟨gapStart, some 100, some "GAP",
          some ("Missing data amounting to " ++ toString (stdTime std end_idx - gapStart))⟩))
    else Except.error "IndexError"
  else pure qc0

/-- The gap loop of `missing_data_quality_code`. -/
def gapFold (std : Series) (gap_limit : Nat) :
    Frame → List (Nat × Nat × Bool) → Except String Frame
  | qc, [] => pure qc
  | qc, g :: gs => do
    let qc2 ← processGap std gap_limit qc g
    gapFold std gap_limit qc2 gs

/-- `evaluator.missing_data_quality_code`: fold the gap list of the logged
series into the quality frame, then `sort_index()`. -/
def missing_data_quality_code (std_series : Series) (qc_data : Frame)
    (gap_limit : Nat) : Except String Frame := do
  let out ← gapFold std_series gap_limit qc_data (gap_finder (std_series.map Prod.snd))
  pure (sortFrame out)

/-- The `Details` text written for an out-of-validation downgrade record.
The source indexes `check_series.index` by the *position in the overdue
list*, not by the overdue check's own index. -/
def oovDetail (t : ℕ) (dqc : ℚ) : String :=
  "Site inspection overdue. Last inspection at " ++ toString t
    ++ ". Data downgraded to QC" ++ toString dqc ++ " until next inspection."

/-- `frame.loc[t, "Value"]`: the `Value` at label `t`; raises `KeyError`
when the label is absent. -/
def frameLoc (f : Frame) (t : ℕ) : Except String (Option ℚ) :=
  match f.find? (fun x => x.time = t) with
  | some r => .ok r.value
  | none => .error "KeyError"

/-- `frame.loc[label_list, "Value"]`: the values at a list of labels,
raising on the first absent label. -/
def locValues (qc : Frame) : List ℕ → Except String (List (Option ℚ))
  | [] => pure []
  | t :: ts => do
    let v ← frameLoc qc t
    let vs ← locValues qc ts
    pure (v :: vs)

/-- `due_date = (check_series.index + max_interval)[:-1]`, day-ceiled when
`day_end_rounding` is set. -/
def dueDates (ctimes : List ℕ) (max_interval : Nat) (day_end_rounding : Bool) :
    List ℕ :=
  let due0 := (ctimes.map (· + max_interval)).dropLast
  if day_end_rounding then due0.map ceilDay else due0

/-- `overdue = (due_date < check_series.index[1:]) & (qc.loc[..] > downgraded_qc)`. -/
def overdueMask (due ctimes : List ℕ) (graded : List (Option ℚ))
    (downgraded_qc : ℚ) : List Bool :=
  (List.zip (List.zip due (ctimes.drop 1)) graded).map
    (fun q => decide (q.1.1 < q.1.2) && nanGt q.2 downgraded_qc)

/-- `unvalidated = due_date[overdue]`. -/
def unvalidatedTimes (due : List ℕ) (mask : List Bool) : List ℕ :=
  ((due.zip mask).filter (fun q => q.2)).map (fun q => q.1)

/-- The `downgraded_times` frame: one `OOV` row per overdue period.  Note the
source's `Details` indexes `check_series.index` by the *position in the
overdue list*  (`for idx in range(len(unvalidated))`), not by the overdue
check's own index. -/
def oovRows (unvalidated : List ℕ) (ctimes : List ℕ) (downgraded_qc : ℚ) :
    Frame :=
  (unvalidated.enum).map
    (fun q => ⟨q.2, some downgraded_qc, some "OOV",
      some (oovDetail (ctimes.getD q.1 0) downgraded_qc)⟩)

/-- `evaluator.single_downgrade_out_of_validation`: due dates are the check
times plus `max_interval`, last check excluded, optionally day-ceiled; a
period is overdue when its due date precedes the next check and the recorded
grade at its check exceeds `downgraded_qc`; one `OOV` row per overdue period
is concatenated and sorted in and the last row's `Value` is forced to 0. -/
def single_downgrade_out_of_validation (qc_frame : Frame) (check_series : Checks)
    (max_interval : Nat) (downgraded_qc : ℚ) (day_end_rounding : Bool := true) :
    Except String Frame := do
  let ctimes := check_series.map Prod.fst
  let due := dueDates ctimes max_interval day_end_rounding
  let graded ← locValues qc_frame ctimes.dropLast
  let downgraded_times : Frame :=
    oovRows (unvalidatedTimes due (overdueMask due ctimes graded downgraded_qc))
      ctimes downgraded_qc
  let qc2 := if downgraded_times.isEmpty then qc_frame
    else sortFrame (qc_frame ++ downgraded_times)
  pure (setLastValue qc2 (some 0))

/-- The rule loop of `bulk_downgrade_out_of_validation`. -/
def downgradeFold (check_series : Checks) (day_end_rounding : Bool) :
    Frame → List (Nat × ℚ) → Except String Frame
  | qc, [] => pure qc
  | qc, kv :: rest => do
    let qc2 ← single_downgrade_out_of_validation qc check_series kv.1 kv.2 day_end_rounding
    downgradeFold check_series day_end_rounding qc2 rest

/-- `evaluator.bulk_downgrade_out_of_validation`: apply the single-interval
downgrade once per `interval_dict` entry, in the order supplied. -/
def bulk_downgrade_out_of_validation (qc_frame : Frame) (check_series : Checks)
    (interval_dict : List (Nat × ℚ)) (day_end_rounding : Bool := true) :
    Except String Frame :=
  downgradeFold check_series day_end_rounding qc_frame interval_dict

/-- `Series.clip(np.NaN, max_qc)` on one cell: a NaN bound imposes no bound,
a NaN value stays NaN. -/
def clipUpper (v : Option ℚ) (m : Option ℚ) : Option ℚ :=
  match v, m with
  | some q, some mv => some (min q mv)
  | w, _ => w

/-- The clause appended to `Details` by the ceiling clamp (`np.NaN` prints
as `nan`). -/
def qcLimitDetail (max_qc : Option ℚ) : String :=
  " [Site QC limit applies to a maximum of "
    ++ (match max_qc with | some m => toString m | none => "nan") ++ ".]"

/-- The per-row effect of `evaluator.max_qc_limiter`: clip `Value` at
`max_qc`; a row whose value changed under pandas `!=` (which also flags NaN
values) gets `", LIM"` appended to `Code` and the ceiling clause appended to
`Details`.  (String append on a NaN tag would raise in pandas; the embedding
keeps `none`, a case no valid quality frame reaches.) -/
def clampRow (max_qc : Option ℚ) (r : Row) : Row :=
  if neqPd r.value (clipUpper r.value max_qc) then
    ⟨r.time, clipUpper r.value max_qc, r.code.map (· ++ ", LIM"),
      r.details.map (· ++ qcLimitDetail max_qc)⟩
  else { r with value := clipUpper r.value max_qc }

/-- `evaluator.max_qc_limiter` proper: apply `clampRow` to every row of the
frame. -/
def max_qc_limiter (qc_data : Frame) (max_qc : Option ℚ) : Frame :=
  qc_data.map (clampRow max_qc)

/-- `evaluator.quality_encoder`: check-based assignment (note: called with
the *default* 10800-second tolerance, `gap_limit` is not forwarded), then
the out-of-validation downgrades, then the gap fold-in (`gap_limit` is used
here, as a sample count), then the ceiling clamp.  `interval_dict` is the
downgrade table the source fixes to its month-based default. -/
def quality_encoder (base_series : Series) (check_series : Checks) (ev : Measurement)
    (gap_limit : Nat) (max_qc : Option ℚ) (interval_dict : List (Nat × ℚ)) :
    Except String Frame := do
  let qc ← check_data_quality_code base_series check_series ev
  let qc ← bulk_downgrade_out_of_validation qc check_series interval_dict
  let qc ← missing_data_quality_code base_series qc gap_limit
  pure (max_qc_limiter qc max_qc)

/-- Modelled from the spec: the entry-point composition in the order the
spec states it — assignment, then the gap fold-in of grade-100 records,
then the validation-interval downgrade, then the ceiling clamp.  Written
for comparison with `quality_encoder`, which is the translation of the
source. -/
def quality_encoder_spec_order (base_series : Series) (check_series : Checks)
    (ev : Measurement) (gap_limit : Nat) (max_qc : Option ℚ)
    (interval_dict : List (Nat × ℚ)) : Except String Frame := do
  let qc ← check_data_quality_code base_series check_series ev
  let qc ← missing_data_quality_code base_series qc gap_limit
  let qc ← bulk_downgrade_out_of_validation qc check_series interval_dict
  pure (max_qc_limiter qc max_qc)


/-! ### Grading model (claims C5, C6) -/

/-- `ratAbs` is the mathematical absolute value. -/
lemma ratAbs_eq_abs (q : ℚ) : ratAbs q = |q| := by
  unfold ratAbs
  split_ifs with h
  · exact (abs_of_neg h).symm
  · exact (abs_of_nonneg (not_lt.mp h)).symm

/-- Claim C5: for the flat grading model with `qc_600_limit < qc_500_limit`,
the grade is 600 below the tight threshold, 500 in the middle band, 400 from
the loose threshold up; NaN on either side grades 400; every input returns. -/
theorem claim_C5_flat_grading (m : Measurement) (hlim : m.qc_600_limit < m.qc_500_limit)
    (b c : ℚ) :
    (|b - c| < m.qc_600_limit → m.find_qc (some b) (some c) = 600) ∧
    (m.qc_600_limit ≤ |b - c| → |b - c| < m.qc_500_limit → m.find_qc (some b) (some c) = 500) ∧
    (m.qc_500_limit ≤ |b - c| → m.find_qc (some b) (some c) = 400) ∧
    (∀ x : Option ℚ, m.find_qc none x = 400 ∧ m.find_qc x none = 400) := by
  refine ⟨fun h => ?_, fun h1 h2 => ?_, fun h => ?_, fun x => ⟨?_, ?_⟩⟩
  · simp [Measurement.find_qc, absDiff, nanLt, ratAbs_eq_abs, h]
  · simp [Measurement.find_qc, absDiff, nanLt, ratAbs_eq_abs, not_lt.mpr h1, h2]
  · have h6 : ¬ |b - c| < m.qc_600_limit := not_lt.mpr (le_trans hlim.le h)
    simp [Measurement.find_qc, absDiff, nanLt, ratAbs_eq_abs, h6, not_lt.mpr h]
  · cases x <;> simp [Measurement.find_qc, absDiff, nanLt]
  · cases x <;> simp [Measurement.find_qc, absDiff, nanLt]

/-- Witness for C5 at the Flat model (5, 1). -/
theorem claim_C5_witness :
    ((1 : ℚ) < 5) ∧
    ((|(10 : ℚ) - 10| < 1 → (Measurement.mk 5 1).find_qc (some 10) (some 10) = 600) ∧
     (1 ≤ |(10 : ℚ) - 10| → |(10 : ℚ) - 10| < 5 → (Measurement.mk 5 1).find_qc (some 10) (some 10) = 500) ∧
     (5 ≤ |(10 : ℚ) - 10| → (Measurement.mk 5 1).find_qc (some 10) (some 10) = 400) ∧
     (∀ x : Option ℚ, (Measurement.mk 5 1).find_qc none x = 400 ∧ (Measurement.mk 5 1).find_qc x none = 400)) :=
  ⟨by norm_num, claim_C5_flat_grading ⟨5, 1⟩ (by norm_num) 10 10⟩

/-- Claim C6, counterexample: with thresholds (5, 1, 5, 1) and tier bound 5,
the base values 10 and −10 have equal magnitude but are graded on different
tiers — the source compares the signed base against the bound, so −10 grades
with the flat thresholds (600) while the claim's magnitude rule would put it
on the percentage tier (grade 500, as for base 10, whose difference ratios
are identical). -/
theorem claim_C6_counterexample :
    (TwoLevelMeasurement.mk 5 1 5 1 5).find_qc 10 (21 / 2) = 500 ∧
    (TwoLevelMeasurement.mk 5 1 5 1 5).find_qc (-10) (-(21 / 2)) = 600 ∧
    (TwoLevelMeasurement.mk 5 1 5 1 5).find_qc (-10) (-(21 / 2)) ≠
      (TwoLevelMeasurement.mk 5 1 5 1 5).find_qc 10 (21 / 2) := by
  refine ⟨?_, ?_, ?_⟩ <;> norm_num [TwoLevelMeasurement.find_qc, ratAbs]

/-- Claim C6 as amended: the tier is chosen by comparing the *signed* base
value with the threshold — flat when `base < m`, percentage otherwise — so
base values of equal magnitude and opposite sign can select different tiers.
On each tier the stated formula holds (the percentage tier stated for a
nonzero check value, where rational and float division agree). -/
theorem claim_C6_two_tier_signed (m : TwoLevelMeasurement) (b c : ℚ) :
    (b < m.limit_percent_threshold →
      m.find_qc b c =
        (if |b - c| < m.qc_600_limit then 600
         else if |b - c| < m.qc_500_limit then 500 else 400)) ∧
    (m.limit_percent_threshold ≤ b → c ≠ 0 →
      m.find_qc b c =
        (if |b / c - 1| * 100 < m.qc_600_percent then 600
         else if |b / c - 1| * 100 < m.qc_500_percent then 500 else 400)) := by
  constructor
  · intro hb
    simp [TwoLevelMeasurement.find_qc, ratAbs_eq_abs, hb]
  · intro hb _
    simp [TwoLevelMeasurement.find_qc, ratAbs_eq_abs, not_lt.mpr hb]

/-- Witness for the amended C6, exercising both tiers. -/
theorem claim_C6_witness :
    ((-10 : ℚ) < 5 ∧
      (TwoLevelMeasurement.mk 5 1 5 1 5).find_qc (-10) (-(21 / 2)) =
        (if |(-10 : ℚ) - -(21 / 2)| < 1 then 600
         else if |(-10 : ℚ) - -(21 / 2)| < 5 then 500 else 400)) ∧
    ((5 : ℚ) ≤ 10 ∧ (21 / 2 : ℚ) ≠ 0 ∧
      (TwoLevelMeasurement.mk 5 1 5 1 5).find_qc 10 (21 / 2) =
        (if |(10 : ℚ) / (21 / 2) - 1| * 100 < 1 then 600
         else if |(10 : ℚ) / (21 / 2) - 1| * 100 < 5 then 500 else 400)) :=
  ⟨⟨by norm_num,
      (claim_C6_two_tier_signed ⟨5, 1, 5, 1, 5⟩ (-10) (-(21 / 2))).1 (by norm_num)⟩,
   ⟨by norm_num, by norm_num,
      (claim_C6_two_tier_signed ⟨5, 1, 5, 1, 5⟩ 10 (21 / 2)).2 (by norm_num) (by norm_num)⟩⟩

/-! ### Ceiling clamp (claim C9) -/

/-- Claim C9: the ceiling clamp is idempotent on quality-code series (series
whose grades are all defined numbers): a second application changes no grade,
tag or detail. -/
theorem claim_C9_clamp_idempotent (s : Frame) (m : Option ℚ)
    (h : ∀ r ∈ s, r.value.isSome) :
    max_qc_limiter (max_qc_limiter s m) m = max_qc_limiter s m := by
  unfold max_qc_limiter
  rw [List.map_map]
  refine List.map_congr_left ?_
  intro r hr
  obtain ⟨v, hv⟩ := Option.isSome_iff_exists.mp (h r hr)
  obtain ⟨rt, rv, rc, rd⟩ := r
  simp only at hv
  subst hv
  show clampRow m (clampRow m ⟨rt, some v, rc, rd⟩) = clampRow m ⟨rt, some v, rc, rd⟩
  cases m with
  | none =>
    simp [clampRow, clipUpper, neqPd]
  | some mv =>
    by_cases hle : v ≤ mv
    · simp [clampRow, clipUpper, neqPd, min_eq_left hle]
    · have hmin : min v mv = mv := min_eq_right (le_of_lt (not_le.mp hle))
      have hne : v ≠ min v mv := by
        rw [hmin]
        exact fun hvm => hle (le_of_eq hvm)
      have hne2 : v ≠ mv := ne_of_gt (not_le.mp hle)
      have h1 : clampRow (some mv) ⟨rt, some v, rc, rd⟩ =
          ⟨rt, some mv, rc.map (· ++ ", LIM"), rd.map (· ++ qcLimitDetail (some mv))⟩ := by
        simp [clampRow, clipUpper, neqPd, hne, hne2, hmin]
      rw [h1]
      simp [clampRow, clipUpper, neqPd]

/-- Witness for C9: a concrete frame with a 600 grade clamped at 500. -/
theorem claim_C9_witness :
    (∀ r ∈ ([⟨0, some 600, some "CHK", some "d"⟩, ⟨5, some 0, none, none⟩] : Frame),
        r.value.isSome) ∧
    max_qc_limiter (max_qc_limiter
        [⟨0, some 600, some "CHK", some "d"⟩, ⟨5, some 0, none, none⟩] (some 500)) (some 500) =
      max_qc_limiter
        [⟨0, some 600, some "CHK", some "d"⟩, ⟨5, some 0, none, none⟩] (some 500) :=
  ⟨by decide, claim_C9_clamp_idempotent
    [⟨0, some 600, some "CHK", some "d"⟩, ⟨5, some 0, none, none⟩] (some 500) (by decide)⟩

/-! ### Nearest-valid-time lookup (claim C10) -/

/-- The accumulator run of `nearestIn`: starting from `some b`, the fold
returns a distance minimizer over `b` and the traversed list. -/
lemma nearestIn_go (dt : ℕ) (ts : List ℕ) :
    ∀ b : ℕ,
      ∃ r, List.foldl
          (fun acc s =>
            match acc with
            | none => some s
            | some b2 => if tdist s dt ≤ tdist b2 dt then some s else some b2)
          (some b) ts = some r
        ∧ r ∈ b :: ts ∧ ∀ s ∈ b :: ts, tdist r dt ≤ tdist s dt := by
  induction ts with
  | nil => exact fun b => ⟨b, rfl, by simp, by simp⟩
  | cons s ts ih =>
    intro b
    rw [List.foldl_cons]
    show ∃ r, List.foldl _ (if tdist s dt ≤ tdist b dt then some s else some b) ts = some r
        ∧ r ∈ b :: s :: ts ∧ ∀ x ∈ b :: s :: ts, tdist r dt ≤ tdist x dt
    by_cases hc : tdist s dt ≤ tdist b dt
    · rw [if_pos hc]
      obtain ⟨r, hfold, hmem, hmin⟩ := ih s
      refine ⟨r, hfold, List.mem_cons_of_mem b hmem, ?_⟩
      intro x hx
      rcases List.mem_cons.mp hx with h | h
      · exact h ▸ le_trans (hmin s (List.mem_cons_self s ts)) hc
      · exact hmin x h
    · rw [if_neg hc]
      obtain ⟨r, hfold, hmem, hmin⟩ := ih b
      refine ⟨r, hfold, ?_, ?_⟩
      · rcases List.mem_cons.mp hmem with h | h
        · exact h ▸ List.mem_cons_self b (s :: ts)
        · exact List.mem_cons_of_mem b (List.mem_cons_of_mem s h)
      · intro x hx
        rcases List.mem_cons.mp hx with h | h
        · exact h ▸ hmin b (List.mem_cons_self b ts)
        · rcases List.mem_cons.mp h with h2 | h2
          · exact h2 ▸ le_trans (hmin b (List.mem_cons_self b ts)) (le_of_lt (not_le.mp hc))
          · exact hmin x (List.mem_cons_of_mem b h2)

/-- `nearestIn` on a nonempty list returns a distance minimizer. -/
lemma nearestIn_spec (dt v : ℕ) (vs : List ℕ) :
    ∃ r, nearestIn dt (v :: vs) = some r ∧ r ∈ v :: vs ∧
      ∀ s ∈ v :: vs, tdist r dt ≤ tdist s dt := by
  obtain ⟨r, hfold, hmem, hmin⟩ := nearestIn_go dt vs v
  exact ⟨r, hfold, hmem, hmin⟩

/-- A series with a non-missing sample has a nonempty valid-time list. -/
lemma validTimes_ne_nil (s : Series) (hvalid : ∃ q ∈ s, q.2.isSome) :
    validTimes s ≠ [] := by
  obtain ⟨q, hq, hs⟩ := hvalid
  exact List.ne_nil_of_mem (List.mem_map.mpr ⟨q, List.mem_filter.mpr ⟨hq, hs⟩, rfl⟩)

/-- In-range lookups on a series with at least one valid sample succeed and
return a distance minimizer among the valid timestamps. -/
lemma find_nearest_valid_time_ok (p : ℕ × Option ℚ) (ps : Series) (dt : ℕ)
    (hvalid : ∃ q ∈ p :: ps, q.2.isSome)
    (h1 : p.1 ≤ dt) (h2 : dt ≤ (ps.getLastD p).1) :
    ∃ r, find_nearest_valid_time (p :: ps) dt = .ok r ∧ r ∈ validTimes (p :: ps) ∧
      ∀ s ∈ validTimes (p :: ps), tdist r dt ≤ tdist s dt := by
  obtain ⟨v, vs, hvv⟩ := List.exists_cons_of_ne_nil (validTimes_ne_nil (p :: ps) hvalid)
  obtain ⟨r, hnear, hmem, hmin⟩ := nearestIn_spec dt v vs
  refine ⟨r, ?_, hvv ▸ hmem, hvv ▸ hmin⟩
  simp only [find_nearest_valid_time, not_lt.mpr h1, not_lt.mpr h2, decide_False,
    Bool.or_self, Bool.false_eq_true, if_false, hvv, hnear]

/-- Out-of-range lookups raise. -/
lemma find_nearest_valid_time_err (p : ℕ × Option ℚ) (ps : Series) (dt : ℕ)
    (h : dt < p.1 ∨ (ps.getLastD p).1 < dt) :
    find_nearest_valid_time (p :: ps) dt = .error "Timestamp not within data range" := by
  rcases h with h | h
  · simp [find_nearest_valid_time, h]
  · rw [List.getLastD_eq_getLast?] at h
    simp [find_nearest_valid_time, h]

/-- Claim C10: for a series with at least one non-missing sample, the
nearest-valid-time lookup validates its query against the raw first/last
timestamps: any query in that closed span succeeds and returns a non-missing
timestamp of minimal distance, and the lookup raises exactly when the query
is strictly outside the raw span. -/
theorem claim_C10_nearest_valid_range (p : ℕ × Option ℚ) (ps : Series) (dt : ℕ)
    (hvalid : ∃ q ∈ p :: ps, q.2.isSome) :
    (p.1 ≤ dt → dt ≤ (ps.getLastD p).1 →
      ∃ r, find_nearest_valid_time (p :: ps) dt = .ok r ∧ r ∈ validTimes (p :: ps) ∧
        ∀ s ∈ validTimes (p :: ps), tdist r dt ≤ tdist s dt) ∧
    ((dt < p.1 ∨ (ps.getLastD p).1 < dt) ↔
      find_nearest_valid_time (p :: ps) dt = .error "Timestamp not within data range") := by
  refine ⟨fun h1 h2 => find_nearest_valid_time_ok p ps dt hvalid h1 h2, ?_, ?_⟩
  · exact find_nearest_valid_time_err p ps dt
  · intro herr
    by_contra hcon
    push_neg at hcon
    obtain ⟨r, hok, _, _⟩ := find_nearest_valid_time_ok p ps dt hvalid hcon.1 hcon.2
    rw [herr] at hok
    exact Except.noConfusion hok

/-- Witness for C10: a query inside a missing run, equidistant case included. -/
theorem claim_C10_witness :
    (∃ q ∈ ([(0, some 10), (900, none), (1800, some 5)] : Series), q.2.isSome) ∧
    ((0 : ℕ) ≤ 800 ∧ (800 : ℕ) ≤ 1800) ∧
    (∃ r, find_nearest_valid_time ([(0, some 10), (900, none), (1800, some 5)] : Series) 800 = .ok r ∧
      r ∈ validTimes ([(0, some 10), (900, none), (1800, some 5)] : Series) ∧
      ∀ s ∈ validTimes ([(0, some 10), (900, none), (1800, some 5)] : Series),
        tdist r 800 ≤ tdist s 800) :=
  ⟨by decide, ⟨by decide, by decide⟩,
    (claim_C10_nearest_valid_range (0, some 10) [(900, none), (1800, some 5)] 800
      (by decide)).1 (by decide) (by decide)⟩


/-! ### Gap analysis (claim C7) -/

/-- A position reported missing lies inside the series. -/
lemma isna_lt_length {l : List (Option ℚ)} {i : Nat} (h : isna l i = true) :
    i < l.length := by
  by_contra hge
  have hnone : l[i]? = none := by
    rw [← List.get?_eq_getElem?]
    exact List.get?_eq_none.mpr (le_of_not_lt hge)
  simp [isna, hnone] at h

/-- Membership in the break list. -/
lemma mem_breakIdx {l : List (Option ℚ)} {i : Nat} :
    i ∈ breakIdx l ↔ i ≤ l.length ∧ isBreak l i = true := by
  simp [breakIdx, List.mem_filter, List.mem_range, Nat.lt_succ_iff]

/-- The break list is strictly ascending. -/
lemma breakIdx_sorted (l : List (Option ℚ)) : (breakIdx l).Pairwise (· < ·) :=
  (List.pairwise_lt_range _).filter _

lemma zero_mem_breakIdx (l : List (Option ℚ)) : 0 ∈ breakIdx l :=
  mem_breakIdx.mpr ⟨Nat.zero_le _, by simp [isBreak]⟩

lemma length_mem_breakIdx (l : List (Option ℚ)) : l.length ∈ breakIdx l :=
  mem_breakIdx.mpr ⟨le_refl _, by simp [isBreak]⟩

/-- Every pair drawn from `zip B B.tail` is a pair of consecutive entries. -/
lemma breakPairs_get {l : List (Option ℚ)} {q : Nat × Nat}
    (h : q ∈ (breakIdx l).zip (breakIdx l).tail) :
    ∃ (j : Nat) (hj : j + 1 < (breakIdx l).length),
      (breakIdx l).get ⟨j, Nat.lt_of_succ_lt hj⟩ = q.1 ∧
      (breakIdx l).get ⟨j + 1, hj⟩ = q.2 := by
  obtain ⟨⟨i, hi⟩, hget⟩ := List.mem_iff_get.mp h
  have hi2 : i + 1 < (breakIdx l).length := by
    have hi3 := hi
    rw [List.length_zip, List.length_tail] at hi3
    omega
  rw [List.get_zip] at hget
  refine ⟨i, hi2, ?_, ?_⟩
  · rw [← hget]
  · rw [← hget]
    simp [List.get_tail]

/-- Facts about a consecutive pair of break positions: ordered, bounded, both
breaks, and no break strictly between them. -/
lemma adj_facts {l : List (Option ℚ)} {q : Nat × Nat}
    (h : q ∈ (breakIdx l).zip (breakIdx l).tail) :
    q.1 < q.2 ∧ q.2 ≤ l.length ∧ isBreak l q.1 = true ∧ isBreak l q.2 = true ∧
      (∀ i, q.1 < i → i < q.2 → isBreak l i = false) := by
  obtain ⟨j, hj, h1, h2⟩ := breakPairs_get h
  have hmono := List.Sorted.get_strictMono (breakIdx_sorted l)
  have hq12 : q.1 < q.2 := by
    rw [← h1, ← h2]
    exact hmono (by simp [Fin.mk_lt_mk])
  have hq1mem : q.1 ∈ breakIdx l := h1 ▸ List.get_mem _ _ _
  have hq2mem : q.2 ∈ breakIdx l := h2 ▸ List.get_mem _ _ _
  refine ⟨hq12, (mem_breakIdx.mp hq2mem).1, (mem_breakIdx.mp hq1mem).2,
    (mem_breakIdx.mp hq2mem).2, ?_⟩
  intro i hi1 hi2
  by_contra hbrk
  rw [Bool.not_eq_false] at hbrk
  have himem : i ∈ breakIdx l :=
    mem_breakIdx.mpr ⟨le_trans (le_of_lt hi2) (mem_breakIdx.mp hq2mem).1, hbrk⟩
  obtain ⟨⟨k, hk⟩, hkeq⟩ := List.mem_iff_get.mp himem
  have hjk : j < k := by
    have hlt : (⟨j, Nat.lt_of_succ_lt hj⟩ : Fin (breakIdx l).length) < ⟨k, hk⟩ :=
      hmono.lt_iff_lt.mp (by rw [h1, hkeq]; exact hi1)
    exact hlt
  have hkj : k < j + 1 := by
    have hlt : (⟨k, hk⟩ : Fin (breakIdx l).length) < ⟨j + 1, hj⟩ :=
      hmono.lt_iff_lt.mp (by rw [h2, hkeq]; exact hi2)
    exact hlt
  omega

/-- Between two consecutive breaks the is-missing mask is constant. -/
lemma isna_const_block {l : List (Option ℚ)} {a b : Nat}
    (hble : b ≤ l.length)
    (hnb : ∀ i, a < i → i < b → isBreak l i = false) :
    ∀ d, a + d < b → isna l (a + d) = isna l a := by
  intro d
  induction d with
  | zero => intro _; rfl
  | succ d ih =>
    intro hd
    have hdb : a + d < b := by omega
    have hnbr := hnb (a + d + 1) (by omega) (by omega)
    have hbne : (isna l (a + d + 1 - 1) != isna l (a + d + 1)) = false := by
      by_contra hb
      rw [Bool.not_eq_false] at hb
      rw [isBreak, hb] at hnbr
      simp at hnbr
    have heq : isna l (a + d) = isna l (a + d + 1) := by
      have h2 := bne_eq_false_iff_eq.mp hbne
      simpa using h2
    calc isna l (a + (d + 1)) = isna l (a + d + 1) := by ring_nf
      _ = isna l (a + d) := heq.symm
      _ = isna l a := ih hdb

/-- Pointwise form of `isna_const_block`. -/
lemma isna_const_at {l : List (Option ℚ)} {a b : Nat}
    (hble : b ≤ l.length)
    (hnb : ∀ i, a < i → i < b → isBreak l i = false)
    (i : Nat) (h1 : a ≤ i) (h2 : i < b) : isna l i = isna l a := by
  have := isna_const_block hble hnb (i - a) (by omega)
  rwa [Nat.add_sub_cancel' h1] at this

/-- Any point bracketed by a strictly ascending list is bracketed by a
consecutive pair of it. -/
lemma exists_enclosing :
    ∀ (B : List Nat), B.Pairwise (· < ·) → ∀ p : Nat,
      (∃ x ∈ B, x ≤ p) → (∃ y ∈ B, p < y) →
      ∃ q ∈ B.zip B.tail, q.1 ≤ p ∧ p < q.2 := by
  intro B
  induction B with
  | nil =>
    intro _ p hlow _
    obtain ⟨x, hx, _⟩ := hlow
    exact absurd hx (List.not_mem_nil x)
  | cons x rest ih =>
    intro hS p hlow hhigh
    cases rest with
    | nil =>
      obtain ⟨a, ha, hap⟩ := hlow
      obtain ⟨b, hb, hpb⟩ := hhigh
      have ha2 : a = x := by simpa using ha
      have hb2 : b = x := by simpa using hb
      omega
    | cons y rest2 =>
      by_cases hp : p < y
      · have hxp : x ≤ p := by
          obtain ⟨a, ha, hap⟩ := hlow
          rcases List.mem_cons.mp ha with hax | har
          · omega
          · have hya : y ≤ a := by
              rcases List.mem_cons.mp har with hay | har2
              · omega
              · exact le_of_lt
                  (List.rel_of_pairwise_cons (List.pairwise_cons.mp hS).2 har2)
            omega
        exact ⟨(x, y), List.mem_cons_self _ _, hxp, hp⟩
      · have hlow2 : ∃ a ∈ y :: rest2, a ≤ p :=
          ⟨y, List.mem_cons_self y rest2, not_lt.mp hp⟩
        have hhigh2 : ∃ b ∈ y :: rest2, p < b := by
          obtain ⟨b, hb, hpb⟩ := hhigh
          rcases List.mem_cons.mp hb with hbx | hbr
          · have hxy : x < y := List.rel_of_pairwise_cons hS (List.mem_cons_self y rest2)
            omega
          · exact ⟨b, hbr, hpb⟩
        obtain ⟨q, hq, h1, h2⟩ := ih (List.pairwise_cons.mp hS).2 p hlow2 hhigh2
        exact ⟨q, List.mem_cons_of_mem _ hq, h1, h2⟩

/-- Deconstruct a reported gap into its consecutive break pair. -/
lemma gap_finder_mem {l : List (Option ℚ)} {g : Nat × Nat × Bool}
    (h : g ∈ gap_finder l) :
    ∃ q ∈ (breakIdx l).zip (breakIdx l).tail,
      isna l q.1 = true ∧ g = (q.1, q.2 - q.1, true) := by
  simp only [gap_finder, List.mem_map, List.mem_filter] at h
  obtain ⟨q, ⟨hq, hisna⟩, heq⟩ := h
  exact ⟨q, hq, hisna, heq.symm⟩

/-- Every missing position is covered by a reported gap. -/
lemma gap_finder_cover {l : List (Option ℚ)} {p : Nat} (h : isna l p = true) :
    ∃ g ∈ gap_finder l, g.1 ≤ p ∧ p < g.1 + g.2.1 := by
  have hplen : p < l.length := isna_lt_length h
  obtain ⟨q, hq, hq1, hq2⟩ := exists_enclosing (breakIdx l) (breakIdx_sorted l) p
    ⟨0, zero_mem_breakIdx l, Nat.zero_le p⟩ ⟨l.length, length_mem_breakIdx l, hplen⟩
  obtain ⟨hlt, hble, _, _, hnb⟩ := adj_facts hq
  have hconst : isna l p = isna l q.1 := isna_const_at hble hnb p hq1 hq2
  rw [hconst] at h
  refine ⟨(q.1, q.2 - q.1, true), ?_, hq1, ?_⟩
  · simp only [gap_finder, List.mem_map]
    exact ⟨q, List.mem_filter.mpr ⟨hq, h⟩, rfl⟩
  · show p < q.1 + (q.2 - q.1)
    omega

/-- Claim C7: for a nonempty series, the reported gaps are pairwise
non-overlapping and ordered by start; their covered positions are exactly
the missing positions; a series without missing samples yields the empty
list; and every reported gap is a maximal missing run (its start is the
first missing sample of the run, its length the run's sample count, runs
touching either end of the series included), with the strictness flag true. -/
theorem claim_C7_gap_partition (l : List (Option ℚ)) (hn : l ≠ []) :
    (gap_finder l).Pairwise (fun g g2 => g.1 + g.2.1 ≤ g2.1) ∧
    (∀ p : Nat, (∃ g ∈ gap_finder l, g.1 ≤ p ∧ p < g.1 + g.2.1) ↔ isna l p = true) ∧
    ((∀ p, p < l.length → isna l p = false) → gap_finder l = []) ∧
    (∀ g ∈ gap_finder l, 0 < g.2.1 ∧ g.2.2 = true ∧
      (∀ i, g.1 ≤ i → i < g.1 + g.2.1 → isna l i = true) ∧
      (g.1 = 0 ∨ isna l (g.1 - 1) = false) ∧
      (g.1 + g.2.1 = l.length ∨ isna l (g.1 + g.2.1) = false)) := by
  have hmono := List.Sorted.get_strictMono (breakIdx_sorted l)
  refine ⟨?_, ?_, ?_, ?_⟩
  · -- pairwise ordering
    have hzip : ((breakIdx l).zip (breakIdx l).tail).Pairwise (fun u v => u.2 ≤ v.1) := by
      rw [List.pairwise_iff_get]
      intro i j hij
      rw [List.get_zip, List.get_zip]
      have hzlen : ((breakIdx l).zip (breakIdx l).tail).length = (breakIdx l).length - 1 := by
        rw [List.length_zip, List.length_tail]
        omega
      have hjlt := j.isLt
      have hij2 : (i : Nat) < (j : Nat) := hij
      have hi1 : (i : Nat) + 1 < (breakIdx l).length := by omega
      have hj1 : (j : Nat) < (breakIdx l).length := by omega
      dsimp only
      rw [List.get_tail]
      exact hmono.monotone (by simp only [Fin.mk_le_mk]; omega)
    have hzip2 : ((breakIdx l).zip (breakIdx l).tail).Pairwise
        (fun u v => u.1 + (u.2 - u.1) ≤ v.1) := by
      refine hzip.imp_of_mem ?_
      intro u v hu _ huv
      have := (adj_facts hu).1
      omega
    have hfil := hzip2.filter (fun p => isna l p.1)
    exact List.pairwise_map.mpr (hfil.imp_of_mem (fun _ _ h => h))
  · -- coverage
    intro p
    constructor
    · rintro ⟨g, hg, h1, h2⟩
      obtain ⟨q, hq, hisna, hgeq⟩ := gap_finder_mem hg
      obtain ⟨hlt, hble, _, _, hnb⟩ := adj_facts hq
      subst hgeq
      have hp2 : p < q.2 := by
        have h2c : p < q.1 + (q.2 - q.1) := h2
        omega
      rw [isna_const_at hble hnb p h1 hp2]
      exact hisna
    · exact gap_finder_cover
  · -- no missing samples: empty gap list
    intro hnone
    rw [List.eq_nil_iff_forall_not_mem]
    intro g hg
    obtain ⟨q, _, hisna, _⟩ := gap_finder_mem hg
    have hlen := isna_lt_length hisna
    rw [hnone q.1 hlen] at hisna
    exact Bool.noConfusion hisna
  · -- maximal-run structure
    intro g hg
    obtain ⟨q, hq, hisna, hgeq⟩ := gap_finder_mem hg
    obtain ⟨hlt, hble, hbrk1, hbrk2, hnb⟩ := adj_facts hq
    subst hgeq
    have hq1len : q.1 < l.length := isna_lt_length hisna
    have hsum : q.1 + (q.2 - q.1) = q.2 := by omega
    refine ⟨?_, rfl, ?_, ?_, ?_⟩
    · show 0 < q.2 - q.1
      omega
    · intro i h1 h2
      have h1b : q.1 ≤ i := h1
      have h2b : i < q.2 := by
        have h2c : i < q.1 + (q.2 - q.1) := h2
        omega
      rw [isna_const_at hble hnb i h1b h2b]
      exact hisna
    · show q.1 = 0 ∨ isna l (q.1 - 1) = false
      simp only [isBreak, Bool.or_eq_true, decide_eq_true_eq, bne_iff_ne] at hbrk1
      rcases hbrk1 with (h0 | hlen) | hne
      · exact Or.inl h0
      · omega
      · right
        rw [hisna] at hne
        cases hx : isna l (q.1 - 1)
        · rfl
        · exact absurd hx hne
    · show q.1 + (q.2 - q.1) = l.length ∨ isna l (q.1 + (q.2 - q.1)) = false
      simp only [isBreak, Bool.or_eq_true, decide_eq_true_eq, bne_iff_ne] at hbrk2
      rcases hbrk2 with (h0 | hlen) | hne
      · omega
      · exact Or.inl (by omega)
      · right
        have hprev : isna l (q.2 - 1) = isna l q.1 :=
          isna_const_at hble hnb (q.2 - 1) (by omega) (by omega)
        rw [hprev, hisna] at hne
        rw [hsum]
        cases hx : isna l q.2
        · rfl
        · exact absurd hx.symm hne

/-- Witness for C7 on a concrete series with an interior run and a run
touching the end. -/
theorem claim_C7_witness :
    (([some 1, none, none, some 2, none] : List (Option ℚ)) ≠ []) ∧
    ((gap_finder [some 1, none, none, some 2, none]).Pairwise
        (fun g g2 => g.1 + g.2.1 ≤ g2.1) ∧
      (∀ p : Nat,
        (∃ g ∈ gap_finder [some 1, none, none, some 2, none], g.1 ≤ p ∧ p < g.1 + g.2.1) ↔
          isna [some 1, none, none, some 2, none] p = true) ∧
      ((∀ p, p < ([some 1, none, none, some 2, none] : List (Option ℚ)).length →
          isna [some 1, none, none, some 2, none] p = false) →
        gap_finder [some 1, none, none, some 2, none] = []) ∧
      (∀ g ∈ gap_finder [some 1, none, none, some 2, none],
        0 < g.2.1 ∧ g.2.2 = true ∧
        (∀ i, g.1 ≤ i → i < g.1 + g.2.1 →
          isna [some 1, none, none, some 2, none] i = true) ∧
        (g.1 = 0 ∨ isna [some 1, none, none, some 2, none] (g.1 - 1) = false) ∧
        (g.1 + g.2.1 = ([some 1, none, none, some 2, none] : List (Option ℚ)).length ∨
          isna [some 1, none, none, some 2, none] (g.1 + g.2.1) = false))) :=
  ⟨by decide, claim_C7_gap_partition [some 1, none, none, some 2, none] (by decide)⟩


/-! ### Quality assignment structure (claims C2, C3) -/

/-- `getLast?` of a cons in `getLastD` form. -/
lemma getLast?_cons_eq {α : Type} (a : α) (l : List α) :
    (a :: l).getLast? = some (l.getLastD a) := by
  induction l generalizing a with
  | nil => rfl
  | cons b t ih => rw [List.getLast?_cons_cons, ih b, List.getLastD_cons]

/-- `getLastD` commutes with `map`. -/
lemma getLastD_map {α β : Type} (f : α → β) (l : List α) (a : α) :
    (l.map f).getLastD (f a) = f (l.getLastD a) := by
  induction l generalizing a with
  | nil => rfl
  | cons b t ih => rw [List.map_cons, List.getLastD_cons, ih b, List.getLastD_cons]

/-- In a strictly ascending list every element is at most the last. -/
lemma mem_le_getLastD {l : List ℕ} {a : ℕ} (hp : (a :: l).Pairwise (· < ·)) :
    ∀ x ∈ a :: l, x ≤ l.getLastD a := by
  induction l generalizing a with
  | nil =>
    intro x hx
    rw [List.mem_singleton] at hx
    exact le_of_eq hx
  | cons b t ih =>
    intro x hx
    rw [List.getLastD_cons]
    rcases List.mem_cons.mp hx with hxa | hxr
    · have hab : a < b := List.rel_of_pairwise_cons hp (List.mem_cons_self b t)
      have hb := ih (List.pairwise_cons.mp hp).2 b (List.mem_cons_self b t)
      omega
    · exact ih (List.pairwise_cons.mp hp).2 x hxr

/-- The elementwise run of a successful `checkRow`. -/
lemma checkRow_eq {series : Series} {ev : Measurement} {gl : Nat} {c : ℕ × ℚ}
    {adj : ℕ} (hf : find_nearest_valid_time series c.1 = .ok adj) :
    checkRow series ev gl c =
      .ok ⟨c.1,
        some (if tdist adj c.1 < gl then ev.find_qc (lookupVal series adj) (some c.2)
          else 200),
        some "CHK", some (chkDetail c.1 adj)⟩ := by
  unfold checkRow
  rw [hf]
  rfl

/-- A failing lookup fails the row. -/
lemma checkRow_err {series : Series} {ev : Measurement} {gl : Nat} {c : ℕ × ℚ}
    {e : String} (hf : find_nearest_valid_time series c.1 = .error e) :
    checkRow series ev gl c = .error e := by
  unfold checkRow
  rw [hf]
  rfl

/-- The row of a successful `checkRow` is stored at the check's timestamp. -/
lemma checkRow_time {series : Series} {ev : Measurement} {gl : Nat} {c : ℕ × ℚ}
    {r : Row} (h : checkRow series ev gl c = .ok r) : r.time = c.1 := by
  cases hf : find_nearest_valid_time series c.1 with
  | error e =>
    rw [checkRow_err hf] at h
    exact Except.noConfusion h
  | ok adj =>
    rw [checkRow_eq hf] at h
    have h2 := Except.ok.inj h
    rw [← h2]

/-- The rows produced by `checkRows` are indexed by the check timestamps. -/
lemma checkRows_times {series : Series} {ev : Measurement} {gl : Nat} :
    ∀ {cs : Checks} {rows : List Row},
      checkRows series ev gl cs = .ok rows → rows.map Row.time = cs.map Prod.fst := by
  intro cs
  induction cs with
  | nil =>
    intro rows h
    have h2 := Except.ok.inj h
    rw [← h2]
    rfl
  | cons ch cs ih =>
    intro rows h
    rw [checkRows] at h
    cases hr : checkRow series ev gl ch with
    | error e =>
      rw [hr] at h
      exact Except.noConfusion h
    | ok r =>
      rw [hr] at h
      cases hrs : checkRows series ev gl cs with
      | error e =>
        rw [hrs] at h
        exact Except.noConfusion h
      | ok rs =>
        rw [hrs] at h
        have h2 := Except.ok.inj h
        rw [← h2, List.map_cons, List.map_cons, checkRow_time hr, ih hrs]

/-- Elementwise reading of `checkRows`. -/
lemma checkRows_get {series : Series} {ev : Measurement} {gl : Nat} :
    ∀ {cs : Checks} {rows : List Row},
      checkRows series ev gl cs = .ok rows →
      rows.length = cs.length ∧
        ∀ i, i < cs.length →
          checkRow series ev gl (cs.getD i (0, 0)) = .ok (rows.getD i ⟨0, none, none, none⟩) := by
  intro cs
  induction cs with
  | nil =>
    intro rows h
    have h2 := Except.ok.inj h
    rw [← h2]
    exact ⟨rfl, fun i hi => absurd hi (Nat.not_lt_zero i)⟩
  | cons ch cs ih =>
    intro rows h
    rw [checkRows] at h
    cases hr : checkRow series ev gl ch with
    | error e =>
      rw [hr] at h
      exact Except.noConfusion h
    | ok r =>
      rw [hr] at h
      cases hrs : checkRows series ev gl cs with
      | error e =>
        rw [hrs] at h
        exact Except.noConfusion h
      | ok rs =>
        rw [hrs] at h
        have h2 := Except.ok.inj h
        rw [← h2]
        obtain ⟨hlen, hget⟩ := ih hrs
        refine ⟨by simp [hlen], ?_⟩
        intro i hi
        cases i with
        | zero => simpa using hr
        | succ j =>
          have hj : j < cs.length := by simpa using hi
          simpa using hget j hj

/-- When the check series is in range of the raw series and the series has a
valid sample, every per-check row succeeds. -/
lemma checkRows_ok (p : ℕ × Option ℚ) (ps : Series) (ev : Measurement) (gl : Nat)
    (hvalid : ∃ q ∈ p :: ps, q.2.isSome) :
    ∀ cs : Checks, (∀ ch ∈ cs, p.1 ≤ ch.1 ∧ ch.1 ≤ (ps.getLastD p).1) →
      ∃ rows, checkRows (p :: ps) ev gl cs = .ok rows := by
  intro cs
  induction cs with
  | nil => exact fun _ => ⟨[], rfl⟩
  | cons ch cs ih =>
    intro hrange
    obtain ⟨h1, h2⟩ := hrange ch (List.mem_cons_self ch cs)
    obtain ⟨adj, hadj, _, _⟩ := find_nearest_valid_time_ok p ps ch.1 hvalid h1 h2
    obtain ⟨rows, hrows⟩ := ih (fun x hx => hrange x (List.mem_cons_of_mem ch hx))
    refine ⟨⟨ch.1,
        some (if tdist adj ch.1 < gl then ev.find_qc (lookupVal (p :: ps) adj) (some ch.2)
          else 200), some "CHK", some (chkDetail ch.1 adj)⟩ :: rows, ?_⟩
    rw [checkRows, checkRow_eq hadj, hrows]
    rfl

/-- The check loop appends one row per check when the frame's labels all
precede the (ascending) check timestamps. -/
lemma checkFold_eq_append (series : Series) (ev : Measurement) (gl : Nat) :
    ∀ (cs : Checks) (rows : List Row),
      checkRows series ev gl cs = .ok rows →
      ∀ (f0 : Frame), (∀ r ∈ f0, ∀ ch ∈ cs, r.time < ch.1) →
        cs.Pairwise (fun a b => a.1 < b.1) →
        checkFold series ev gl f0 cs = .ok (f0 ++ rows) := by
  intro cs
  induction cs with
  | nil =>
    intro rows h f0 _ _
    have h2 := Except.ok.inj h
    rw [← h2, List.append_nil]
    rfl
  | cons ch cs ih =>
    intro rows h f0 hlt hpw
    rw [checkRows] at h
    cases hr : checkRow series ev gl ch with
    | error e =>
      rw [hr] at h
      exact Except.noConfusion h
    | ok r =>
      rw [hr] at h
      cases hrs : checkRows series ev gl cs with
      | error e =>
        rw [hrs] at h
        exact Except.noConfusion h
      | ok rs =>
        rw [hrs] at h
        have h2 := Except.ok.inj h
        rw [← h2]
        have hloc : locSetRow f0 r = f0 ++ [r] := by
          unfold locSetRow
          rw [if_neg]
          intro hany
          rw [List.any_eq_true] at hany
          obtain ⟨x, hx, hxeq⟩ := hany
          rw [decide_eq_true_eq] at hxeq
          have := hlt x hx ch (List.mem_cons_self ch cs)
          rw [checkRow_time hr] at hxeq
          omega
        have hstep : checkFold series ev gl f0 (ch :: cs) =
            checkFold series ev gl (locSetRow f0 r) cs := by
          rw [checkFold, hr]
          rfl
        rw [hstep, hloc]
        have hlt2 : ∀ x ∈ f0 ++ [r], ∀ ch2 ∈ cs, x.time < ch2.1 := by
          intro x hx ch2 hch2
          rcases List.mem_append.mp hx with hx0 | hx1
          · exact hlt x hx0 ch2 (List.mem_cons_of_mem ch hch2)
          · rw [List.mem_singleton] at hx1
            rw [hx1, checkRow_time hr]
            exact List.rel_of_pairwise_cons hpw hch2
        rw [ih rs hrs (f0 ++ [r]) hlt2 (List.pairwise_cons.mp hpw).2]
        rw [List.append_assoc]
        rfl

/-- Extract the index of a `zipWith` element. -/
lemma mem_zipWith_get {α β γ : Type} (f : α → β → γ) (l1 : List α) (l2 : List β) {x : γ}
    (h : x ∈ List.zipWith f l1 l2) :
    ∃ (i : Nat) (h1 : i < l1.length) (h2 : i < l2.length),
      x = f (l1.get ⟨i, h1⟩) (l2.get ⟨i, h2⟩) := by
  obtain ⟨⟨i, hi⟩, hget⟩ := List.mem_iff_get.mp h
  rw [List.get_zipWith] at hget
  exact ⟨i, List.lt_length_left_of_zipWith hi, List.lt_length_right_of_zipWith hi, hget.symm⟩

/-- `shiftUpRows` of a nonempty cons, in `zipWith` form. -/
lemma shiftUpRows_cons (r0 : Row) (rows : List Row) (hne : rows ≠ []) :
    shiftUpRows (r0 :: rows) =
      List.zipWith (fun cur next => Row.mk cur.time next.value next.code next.details)
        (r0 :: rows) rows
      ++ [⟨(rows.getLast hne).time, none, none, none⟩] := by
  unfold shiftUpRows
  congr 1
  · show ((r0 :: rows).zip rows).map _ = _
    rw [List.zip_eq_zipWith, List.map_zipWith]
  · rw [List.getLast?_eq_getLast (r0 :: rows) (List.cons_ne_nil r0 rows)]
    have : (r0 :: rows).getLast (List.cons_ne_nil r0 rows) = rows.getLast hne := by
      cases rows with
      | nil => exact absurd rfl hne
      | cons b t => rw [List.getLast_cons]
    rw [this]

/-- `setLastValue` on a frame ending in a uniquely-labelled row rewrites just
that row. -/
lemma setLastValue_concat (f1 : Frame) (r : Row) (v : Option ℚ)
    (hlt : ∀ x ∈ f1, x.time ≠ r.time) :
    setLastValue (f1 ++ [r]) v = f1 ++ [{ r with value := v }] := by
  unfold setLastValue
  rw [List.getLast?_concat]
  dsimp only
  rw [List.map_append]
  congr 1
  · have : ∀ x ∈ f1, (if x.time = r.time then { x with value := v } else x) = x := by
      intro x hx
      rw [if_neg (hlt x hx)]
    rw [List.map_congr_left this]
    simp
  · simp

/-- Every row produced by the shift `zipWith` carries a time strictly below
the last time of the stacked frame. -/
lemma zipWith_time_lt (r0 : Row) (rows : List Row) (ts : List ℕ)
    (hmap : (r0 :: rows).map Row.time = ts)
    (hsorted : ts.Pairwise (· < ·))
    (T : ℕ) (hT : ts.getLast? = some T) :
    ∀ x ∈ List.zipWith (fun cur next => Row.mk cur.time next.value next.code next.details)
        (r0 :: rows) rows, x.time < T := by
  intro x hx
  obtain ⟨i, h1, h2, hxeq⟩ := mem_zipWith_get _ _ _ hx
  have hlen : ts.length = rows.length + 1 := by
    rw [← hmap, List.length_map]
    rfl
  have hmono := List.Sorted.get_strictMono hsorted
  have htsne : ts ≠ [] := by
    intro hc
    rw [hc] at hT
    exact Option.noConfusion hT
  have hx_time : x.time = ts.getD i 0 := by
    have h3 : i < ((r0 :: rows).map Row.time).length := by
      rw [List.length_map]
      exact h1
    rw [hmap] at h3
    rw [← hmap, List.getD_eq_get _ 0 (by rw [List.length_map]; exact h1)]
    rw [List.get_map Row.time, hxeq]
  have hT_eq : T = ts.getD rows.length 0 := by
    rw [List.getLast?_eq_getLast ts htsne] at hT
    have h4 := Option.some.inj hT
    rw [← h4, List.getLast_eq_get, List.getD_eq_get _ 0 (by omega)]
    exact congrArg ts.get (Fin.ext (by simp [hlen]))
  rw [hx_time, hT_eq]
  rw [List.getD_eq_get ts 0 (show i < ts.length by omega),
    List.getD_eq_get ts 0 (show rows.length < ts.length by omega)]
  apply hmono
  exact Fin.mk_lt_mk.mpr h2

/-- Structure of `check_data_quality_code` on valid input: the initial
frame row plus the per-check rows, all contents shifted back one position
(the grade computed at check `i` lands at the timestamp of check `i - 1`,
the first check's grade at the logged series' first timestamp), and the
final record forced to grade 0. -/
lemma check_data_quality_code_spec (p : ℕ × Option ℚ) (ps : Series) (c : ℕ × ℚ)
    (cs : Checks) (ev : Measurement) (gl : Nat) (rows : List Row)
    (hrows : checkRows (p :: ps) ev gl (c :: cs) = .ok rows)
    (hasc : (c :: cs).Pairwise (fun a b => a.1 < b.1))
    (h0 : p.1 < c.1)
    (hlast : (cs.getLastD c).1 ≤ (ps.getLastD p).1) :
    check_data_quality_code (p :: ps) (c :: cs) ev gl =
      .ok (List.zipWith (fun cur next => Row.mk cur.time next.value next.code next.details)
            (⟨p.1, none, none, none⟩ :: rows) rows
          ++ [⟨(cs.getLastD c).1, some 0, none, none⟩]) := by
  have htimes : rows.map Row.time = (c :: cs).map Prod.fst := checkRows_times hrows
  have hne : rows ≠ [] := by
    intro hcon
    rw [hcon] at htimes
    exact List.noConfusion htimes.symm
  have hT : (rows.getLast hne).time = (cs.getLastD c).1 := by
    have h1 : rows.getLast? = some (rows.getLast hne) := List.getLast?_eq_getLast rows hne
    have h2 : (rows.map Row.time).getLast? = some ((rows.getLast hne).time) := by
      rw [List.getLast?_map, h1]
      rfl
    rw [htimes, List.map_cons, getLast?_cons_eq, getLastD_map] at h2
    exact (Option.some.inj h2).symm
  have hts : (p.1 :: (c :: cs).map Prod.fst).Pairwise (· < ·) := by
    rw [List.pairwise_cons]
    constructor
    · intro y hy
      rw [List.mem_map] at hy
      obtain ⟨ch, hch, hyeq⟩ := hy
      rcases List.mem_cons.mp hch with hc | hcs
      · rw [← hyeq, hc]
        exact h0
      · have := List.rel_of_pairwise_cons hasc hcs
        rw [← hyeq]
        omega
    · exact List.pairwise_map.mpr hasc
  have hfold : checkFold (p :: ps) ev gl ([⟨p.1, none, none, none⟩] : Frame) (c :: cs) =
      .ok (⟨p.1, none, none, none⟩ :: rows) := by
    have h1 : ∀ r ∈ ([⟨p.1, none, none, none⟩] : Frame), ∀ ch ∈ c :: cs, r.time < ch.1 := by
      intro r hr ch hch
      rw [List.mem_singleton] at hr
      rw [hr]
      exact List.rel_of_pairwise_cons hts (List.mem_map.mpr ⟨ch, hch, rfl⟩)
    have h2 := checkFold_eq_append (p :: ps) ev gl (c :: cs) rows hrows
      [⟨p.1, none, none, none⟩] h1 hasc
    rw [h2]
    rfl
  have hmapts : ((⟨p.1, none, none, none⟩ : Row) :: rows).map Row.time =
      p.1 :: (c :: cs).map Prod.fst := by
    rw [List.map_cons, htimes]
  have htslast : (p.1 :: (c :: cs).map Prod.fst).getLast? = some ((cs.getLastD c).1) := by
    rw [getLast?_cons_eq, List.map_cons, List.getLastD_cons, getLastD_map]
  have hzw := zipWith_time_lt ⟨p.1, none, none, none⟩ rows
    (p.1 :: (c :: cs).map Prod.fst) hmapts hts ((cs.getLastD c).1) htslast
  simp only [check_data_quality_code]
  rw [if_neg (by
    simp only [Bool.or_eq_true, decide_eq_true_eq, not_or, not_lt]
    exact ⟨le_of_lt h0, hlast⟩)]
  rw [hfold]
  show Except.ok (setLastValue (shiftUpRows (⟨p.1, none, none, none⟩ :: rows)) (some 0)) = _
  rw [shiftUpRows_cons _ rows hne, hT]
  rw [setLastValue_concat _ _ _ (fun x hx => ne_of_lt (hzw x hx))]


/-- `getD` of an append, inside the left part. -/
lemma getD_append_left {α : Type} (l1 l2 : List α) (i : Nat) (d : α)
    (h : i < l1.length) : (l1 ++ l2).getD i d = l1.getD i d := by
  simp [List.getD, List.getElem?_append, h]

/-- Claim C3: in the quality assignment step every computed record is shifted
back one position in check order — the grade computed by comparing at check
`i` is reassigned to the timestamp of check `i - 1`, the first check's grade
overwrites the record at the logged series' first timestamp — and the record
at the last timestamp is forced to grade 0. -/
theorem claim_C3_shift_by_one (p : ℕ × Option ℚ) (ps : Series) (c : ℕ × ℚ)
    (cs : Checks) (ev : Measurement) (gl : ℕ) (rows : List Row)
    (hrows : checkRows (p :: ps) ev gl (c :: cs) = .ok rows)
    (hasc : (c :: cs).Pairwise (fun a b => a.1 < b.1))
    (h0 : p.1 < c.1)
    (hlast : (cs.getLastD c).1 ≤ (ps.getLastD p).1) :
    check_data_quality_code (p :: ps) (c :: cs) ev gl =
      .ok (List.zipWith (fun cur next => Row.mk cur.time next.value next.code next.details)
            (⟨p.1, none, none, none⟩ :: rows) rows
          ++ [⟨(cs.getLastD c).1, some 0, none, none⟩]) :=
  check_data_quality_code_spec p ps c cs ev gl rows hrows hasc h0 hlast

unseal Rat.sub Rat.add Rat.mul in
/-- Witness for C3: scenario A — a constant series of 10.0 every 15 minutes
for 2 hours, one matching check at the final timestamp, Flat thresholds
(5, 1); the output is exactly two records, grade 600 at the first timestamp
and grade 0 at the last. -/
theorem claim_C3_witness :
    checkRows
        [(0, some 10), (900, some 10), (1800, some 10), (2700, some 10), (3600, some 10),
          (4500, some 10), (5400, some 10), (6300, some 10), (7200, some 10)]
        ⟨5, 1⟩ 10800 [(7200, 10)] =
      .ok [⟨7200, some 600, some "CHK", some (chkDetail 7200 7200)⟩] ∧
    ([((7200 : ℕ), (10 : ℚ))].Pairwise (fun a b => a.1 < b.1)) ∧
    (0 : ℕ) < 7200 ∧ (7200 : ℕ) ≤ 7200 ∧
    check_data_quality_code
        [(0, some 10), (900, some 10), (1800, some 10), (2700, some 10), (3600, some 10),
          (4500, some 10), (5400, some 10), (6300, some 10), (7200, some 10)]
        [(7200, 10)] ⟨5, 1⟩ 10800 =
      .ok [⟨0, some 600, some "CHK", some (chkDetail 7200 7200)⟩,
        ⟨7200, some 0, none, none⟩] :=
  ⟨by decide, by decide, by decide, by decide,
    claim_C3_shift_by_one (0, some 10)
      [(900, some 10), (1800, some 10), (2700, some 10), (3600, some 10),
        (4500, some 10), (5400, some 10), (6300, some 10), (7200, some 10)]
      (7200, 10) [] ⟨5, 1⟩ 10800
      [⟨7200, some 600, some "CHK", some (chkDetail 7200 7200)⟩]
      (by decide) (by decide) (by decide) (by decide)⟩

unseal Rat.sub Rat.add Rat.mul in
/-- Claim C2, counterexample: `quality_encoder` does not forward its
`gap_limit` to the check step.  With `gap_limit = 3600` and a check whose
nearest valid sample is 4000 seconds away (4000 ≥ 3600), the claim says the
check is graded 200; the code grades it with the model (600), because the
check step runs with its own default tolerance of 10800 seconds.
(Preceding command: make the rational arithmetic primitives reducible so the
concrete run evaluates.) -/
theorem claim_C2_counterexample :
    find_nearest_valid_time
        [(0, some 10), (900, none), (1800, none), (2700, none), (3600, none), (4500, none),
          (5400, none), (6300, none), (7200, none), (8100, none), (9000, some 10)] 5000 =
      .ok 9000 ∧
    tdist 9000 5000 = 4000 ∧ (3600 : ℕ) ≤ 4000 ∧
    ((quality_encoder
        [(0, some 10), (900, none), (1800, none), (2700, none), (3600, none), (4500, none),
          (5400, none), (6300, none), (7200, none), (8100, none), (9000, some 10)]
        [(5000, 10)] ⟨5, 1⟩ 3600 none []).toOption.map
      (fun F => (F.getD 0 ⟨0, none, none, none⟩).value)) = some (some 600) ∧
    some (600 : ℚ) ≠ some 200 := by
  refine ⟨by decide, by decide, by decide, by decide, by decide⟩

/-- Claim C2 as amended: the 200-vs-model decision in the check step is
driven by `check_data_quality_code`'s own `gap_limit` parameter (whose
default is 10800 seconds; `quality_encoder` does not pass its `gap_limit`
down): a check whose nearest valid sample is `gap_limit` seconds or more
away is graded 200, a strictly closer one is graded by the model. -/
theorem claim_C2_check_threshold (p : ℕ × Option ℚ) (ps : Series) (c : ℕ × ℚ)
    (cs : Checks) (ev : Measurement) (gl : ℕ)
    (hvalid : ∃ q ∈ p :: ps, q.2.isSome)
    (hasc : (c :: cs).Pairwise (fun a b => a.1 < b.1))
    (h0 : p.1 < c.1)
    (hlast : (cs.getLastD c).1 ≤ (ps.getLastD p).1) :
    ∃ F, check_data_quality_code (p :: ps) (c :: cs) ev gl = .ok F ∧
      F.length = (c :: cs).length + 1 ∧
      ∀ i, i < (c :: cs).length →
        ∃ adj, find_nearest_valid_time (p :: ps) (((c :: cs).getD i (0, 0)).1) = .ok adj ∧
          (F.getD i ⟨0, none, none, none⟩).value =
            some (if tdist adj ((c :: cs).getD i (0, 0)).1 < gl
              then ev.find_qc (lookupVal (p :: ps) adj) (some ((c :: cs).getD i (0, 0)).2)
              else 200) := by
  have hrange : ∀ ch ∈ c :: cs, p.1 ≤ ch.1 ∧ ch.1 ≤ (ps.getLastD p).1 := by
    intro ch hch
    constructor
    · rcases List.mem_cons.mp hch with hc | hcs
      · rw [hc]
        exact le_of_lt h0
      · have := List.rel_of_pairwise_cons hasc hcs
        omega
    · have h1 : ch.1 ≤ ((cs.map Prod.fst).getLastD c.1) := by
        have hpw : (c.1 :: cs.map Prod.fst).Pairwise (· < ·) := by
          have := List.pairwise_map.mpr hasc
          rwa [List.map_cons] at this
        exact mem_le_getLastD hpw ch.1
          (by rw [← List.map_cons]; exact List.mem_map.mpr ⟨ch, hch, rfl⟩)
      rw [getLastD_map] at h1
      omega
  obtain ⟨rows, hrows⟩ := checkRows_ok p ps ev gl hvalid (c :: cs) hrange
  obtain ⟨hlen, hget⟩ := checkRows_get hrows
  refine ⟨_, check_data_quality_code_spec p ps c cs ev gl rows hrows hasc h0 hlast, ?_, ?_⟩
  · rw [List.length_append, List.length_zipWith]
    simp [hlen]
  · intro i hi
    have hi2 : i < rows.length := by omega
    have hrowi := hget i hi
    cases hf : find_nearest_valid_time (p :: ps) (((c :: cs).getD i (0, 0)).1) with
    | error e =>
      rw [checkRow_err hf] at hrowi
      exact Except.noConfusion hrowi
    | ok adj =>
      rw [checkRow_eq hf] at hrowi
      have hval := Except.ok.inj hrowi
      refine ⟨adj, rfl, ?_⟩
      have hzwlen : (List.zipWith
          (fun cur next => Row.mk cur.time next.value next.code next.details)
          (⟨p.1, none, none, none⟩ :: rows) rows).length = rows.length := by
        rw [List.length_zipWith]
        simp
      rw [getD_append_left _ _ i _ (by omega)]
      have hgetzw : (List.zipWith
          (fun cur next => Row.mk cur.time next.value next.code next.details)
          (⟨p.1, none, none, none⟩ :: rows) rows).getD i ⟨0, none, none, none⟩ =
          Row.mk (((⟨p.1, none, none, none⟩ :: rows).get ⟨i, by simp; omega⟩).time)
            ((rows.get ⟨i, hi2⟩).value) ((rows.get ⟨i, hi2⟩).code)
            ((rows.get ⟨i, hi2⟩).details) := by
        rw [List.getD_eq_get _ _ (by omega)]
        exact List.get_zipWith
      rw [hgetzw]
      show (rows.get ⟨i, hi2⟩).value = _
      rw [← List.getD_eq_get rows ⟨0, none, none, none⟩ hi2, ← hval]


unseal Rat.sub Rat.add Rat.mul in
/-- Witness for the amended C2: one check within the tolerance graded by the
model, one beyond it graded 200. -/
theorem claim_C2_witness :
    (∃ q ∈ ([(0, some 10), (900, none), (1800, none), (2700, none), (3600, none), (4500, none),
        (5400, none), (6300, none), (7200, none), (8100, none), (9000, some 10)] : Series),
      q.2.isSome) ∧
    ([((500 : ℕ), (10 : ℚ)), (5000, 10)].Pairwise (fun a b => a.1 < b.1)) ∧
    (0 : ℕ) < 500 ∧ (5000 : ℕ) ≤ 9000 ∧
    (∃ F, check_data_quality_code
        [(0, some 10), (900, none), (1800, none), (2700, none), (3600, none), (4500, none),
          (5400, none), (6300, none), (7200, none), (8100, none), (9000, some 10)]
        [(500, 10), (5000, 10)] ⟨5, 1⟩ 3600 = .ok F ∧
      F.length = ([((500 : ℕ), (10 : ℚ)), (5000, 10)] : Checks).length + 1 ∧
      ∀ i, i < ([((500 : ℕ), (10 : ℚ)), (5000, 10)] : Checks).length →
        ∃ adj, find_nearest_valid_time
            [(0, some 10), (900, none), (1800, none), (2700, none), (3600, none), (4500, none),
              (5400, none), (6300, none), (7200, none), (8100, none), (9000, some 10)]
            (([((500 : ℕ), (10 : ℚ)), (5000, 10)] : Checks).getD i (0, 0)).1 = .ok adj ∧
          (F.getD i ⟨0, none, none, none⟩).value =
            some (if tdist adj (([((500 : ℕ), (10 : ℚ)), (5000, 10)] : Checks).getD i (0, 0)).1 < 3600
              then (Measurement.mk 5 1).find_qc
                (lookupVal
                  [(0, some 10), (900, none), (1800, none), (2700, none), (3600, none), (4500, none),
                    (5400, none), (6300, none), (7200, none), (8100, none), (9000, some 10)] adj)
                (some (([((500 : ℕ), (10 : ℚ)), (5000, 10)] : Checks).getD i (0, 0)).2)
              else 200)) :=
  ⟨by decide, by decide, by decide, by decide,
    claim_C2_check_threshold (0, some 10)
      [(900, none), (1800, none), (2700, none), (3600, none), (4500, none),
        (5400, none), (6300, none), (7200, none), (8100, none), (9000, some 10)]
      (500, 10) [(5000, 10)] ⟨5, 1⟩ 3600
      (by decide) (by decide) (by decide) (by decide)⟩

/-! ### Entry-point stage order (claim C1) -/

/-- Claim C1 as amended: `quality_encoder` composes the stages in the order
assignment → validation-interval downgrade → gap fold-in → ceiling clamp
(the downgrade runs *before* the grade-100 gap records are folded in, not
after as the claim states). -/
theorem claim_C1_stage_order (base_series : Series) (check_series : Checks)
    (ev : Measurement) (gap_limit : ℕ) (max_qc : Option ℚ)
    (interval_dict : List (ℕ × ℚ)) :
    quality_encoder base_series check_series ev gap_limit max_qc interval_dict =
      (check_data_quality_code base_series check_series ev >>= (fun qc =>
        bulk_downgrade_out_of_validation qc check_series interval_dict >>= (fun qc2 =>
          missing_data_quality_code base_series qc2 gap_limit >>= (fun qc3 =>
            pure (max_qc_limiter qc3 max_qc))))) :=
  rfl

unseal Rat.sub Rat.add Rat.mul in
/-- Claim C1, counterexample: on a series whose long gap starts at the first
check's timestamp, running the gap fold-in before the downgrade (the order
the claim states, `quality_encoder_spec_order`) erases the grade the
downgrade tests, so the claimed order produces no `OOV` record (4 rows)
while `quality_encoder` produces one (5 rows).  The two stage orders are
not equivalent. -/
theorem claim_C1_counterexample :
    (quality_encoder [(0, some 10), (900, none), (1800, none), (2700, some 10), (180000, some 10)]
        [(900, 10), (180000, 10)] ⟨5, 1⟩ 1 none [(86400, 500)]).toOption.map List.length =
      some 5 ∧
    (quality_encoder_spec_order
        [(0, some 10), (900, none), (1800, none), (2700, some 10), (180000, some 10)]
        [(900, 10), (180000, 10)] ⟨5, 1⟩ 1 none [(86400, 500)]).toOption.map List.length =
      some 4 ∧
    quality_encoder [(0, some 10), (900, none), (1800, none), (2700, some 10), (180000, some 10)]
        [(900, 10), (180000, 10)] ⟨5, 1⟩ 1 none [(86400, 500)] ≠
      quality_encoder_spec_order
        [(0, some 10), (900, none), (1800, none), (2700, some 10), (180000, some 10)]
        [(900, 10), (180000, 10)] ⟨5, 1⟩ 1 none [(86400, 500)] := by
  have e1 : (quality_encoder
      [(0, some 10), (900, none), (1800, none), (2700, some 10), (180000, some 10)]
      [(900, 10), (180000, 10)] ⟨5, 1⟩ 1 none [(86400, 500)]).toOption.map List.length =
      some 5 := by decide
  have e2 : (quality_encoder_spec_order
      [(0, some 10), (900, none), (1800, none), (2700, some 10), (180000, some 10)]
      [(900, 10), (180000, 10)] ⟨5, 1⟩ 1 none [(86400, 500)]).toOption.map List.length =
      some 4 := by decide
  refine ⟨e1, e2, fun h => ?_⟩
  rw [h, e2] at e1
  exact absurd (Option.some.inj e1) (by omega)


/-! ### Out-of-validation downgrade structure (claims C8, C4) -/

/-- `getD` through a `map`, inside the range. -/
lemma getD_map_of_lt {α β : Type} (f : α → β) (l : List α) (i : Nat) (d : β) (d0 : α)
    (h : i < l.length) : (l.map f).getD i d = f (l.getD i d0) := by
  rw [List.getD_eq_get _ d (by simpa using h), List.getD_eq_get _ d0 h, List.get_map]

/-- `getD` through `dropLast`, inside the range. -/
lemma getD_dropLast_of_lt {α : Type} (l : List α) (i : Nat) (d : α)
    (h : i + 1 < l.length) : l.dropLast.getD i d = l.getD i d := by
  rw [List.getD_eq_get _ d (by rw [List.length_dropLast]; omega), List.getD_eq_get _ d (by omega)]
  rw [List.get_eq_getElem, List.get_eq_getElem]
  rw [List.getElem_dropLast]

/-- `getD` through `drop`. -/
lemma getD_drop {α : Type} (l : List α) (k i : Nat) (d : α) :
    (l.drop k).getD i d = l.getD (k + i) d := by
  simp only [List.getD, List.get?_eq_getElem?, List.getElem?_drop]

/-- `getD` through a `zip`, inside both ranges. -/
lemma getD_zip_of_lt {α β : Type} (l1 : List α) (l2 : List β) (i : Nat) (d1 : α) (d2 : β)
    (h1 : i < l1.length) (h2 : i < l2.length) :
    (l1.zip l2).getD i (d1, d2) = (l1.getD i d1, l2.getD i d2) := by
  rw [List.getD_eq_get _ _ (by rw [List.length_zip]; omega),
    List.getD_eq_get _ d1 h1, List.getD_eq_get _ d2 h2]
  rw [List.get_zip]

/-- `getD` through `enum`, inside the range. -/
lemma getD_enum_of_lt {α : Type} (l : List α) (i : Nat) (d : α)
    (h : i < l.length) : l.enum.getD i (0, d) = (i, l.getD i d) := by
  rw [List.getD_eq_get _ _ (by rw [List.enum_length]; omega), List.getD_eq_get _ d h]
  rw [List.get_eq_getElem, List.get_eq_getElem]
  simp [List.getElem_enum]

/-- In a frame with no duplicate labels, rows are determined by their label. -/
lemma frame_row_unique {qc : Frame} (hnd : (qc.map Row.time).Nodup)
    {r1 r2 : Row} (h1 : r1 ∈ qc) (h2 : r2 ∈ qc) (ht : r1.time = r2.time) : r1 = r2 :=
  List.inj_on_of_nodup_map hnd h1 h2 ht

/-- A present label makes `frameLoc` succeed with the value of some matching
row. -/
lemma frameLoc_ok_of_mem {qc : Frame} {t : ℕ} (h : ∃ r ∈ qc, r.time = t) :
    ∃ r0 ∈ qc, r0.time = t ∧ frameLoc qc t = .ok r0.value := by
  obtain ⟨r, hr, hrt⟩ := h
  have hsome : (qc.find? (fun x => decide (x.time = t))).isSome := by
    rw [List.find?_isSome]
    exact ⟨r, hr, by simp [hrt]⟩
  obtain ⟨r0, hr0⟩ := Option.isSome_iff_exists.mp hsome
  refine ⟨r0, List.mem_of_find?_eq_some hr0, ?_, ?_⟩
  · have := List.find?_some hr0
    simpa using this
  · unfold frameLoc
    rw [hr0]

/-- With unique labels, `frameLoc` returns the value at the label. -/
lemma frameLoc_eq_of_nodup {qc : Frame} (hnd : (qc.map Row.time).Nodup)
    {r0 : Row} {t : ℕ} (h0 : r0 ∈ qc) (ht : r0.time = t) :
    frameLoc qc t = .ok r0.value := by
  obtain ⟨r1, hr1, hrt1, heq⟩ := frameLoc_ok_of_mem ⟨r0, h0, ht⟩
  rw [heq, frame_row_unique hnd h0 hr1 (by rw [ht, hrt1])]

/-- A frame containing all the requested labels makes `locValues` succeed,
elementwise. -/
lemma locValues_ok {qc : Frame} :
    ∀ ts : List ℕ, (∀ t ∈ ts, ∃ r ∈ qc, r.time = t) →
      ∃ gs, locValues qc ts = .ok gs ∧ gs.length = ts.length ∧
        ∀ i, i < ts.length →
          ∃ r0 ∈ qc, r0.time = ts.getD i 0 ∧ gs.getD i none = r0.value := by
  intro ts
  induction ts with
  | nil => exact fun _ => ⟨[], rfl, rfl, fun i hi => absurd hi (Nat.not_lt_zero i)⟩
  | cons t ts ih =>
    intro hpres
    obtain ⟨r0, hr0, hrt0, hloc⟩ :=
      frameLoc_ok_of_mem (hpres t (List.mem_cons_self t ts))
    obtain ⟨gs, hgs, hlen, hpt⟩ := ih (fun x hx => hpres x (List.mem_cons_of_mem t hx))
    refine ⟨r0.value :: gs, ?_, by simp [hlen], ?_⟩
    · rw [locValues, hloc, hgs]
      rfl
    · intro i hi
      cases i with
      | zero => exact ⟨r0, hr0, hrt0, rfl⟩
      | succ j =>
        have hj : j < ts.length := by simpa using hi
        simpa using hpt j hj

/-- In a frame sorted by label, every label is at most the last row's. -/
lemma sorted_le_getLast {f : Frame} (hs : f.Sorted rowLe) (hne : f ≠ []) :
    ∀ r ∈ f, r.time ≤ (f.getLast hne).time := by
  intro r hr
  obtain ⟨i, hi⟩ := List.get_of_mem hr
  have hlen : 0 < f.length := List.length_pos.mpr hne
  rw [List.getLast_eq_get]
  rcases Nat.lt_or_ge i.1 (f.length - 1) with hlt | hge
  · have hfin : i < (⟨f.length - 1, by omega⟩ : Fin f.length) := hlt
    have := List.Sorted.rel_get_of_lt hs hfin
    rw [hi] at this
    exact this
  · have hie : i = (⟨f.length - 1, by omega⟩ : Fin f.length) := by
      apply Fin.ext
      have := i.2
      simp only []
      omega
    rw [← hi, hie]

/-- `sort_index` is a permutation. -/
lemma mem_sortFrame {f : Frame} {r : Row} : r ∈ sortFrame f ↔ r ∈ f :=
  (List.perm_insertionSort rowLe f).mem_iff

/-- `sort_index` sorts. -/
lemma sortFrame_sorted (f : Frame) : (sortFrame f).Sorted rowLe :=
  List.sorted_insertionSort rowLe f

/-- The last row of a sorted frame that contains its label bound `TL` and
stays below it has label exactly `TL`. -/
lemma getLast_time_eq {f : Frame} (hs : f.Sorted rowLe) (hne : f ≠ []) (TL : ℕ)
    (hmem : ∃ r ∈ f, r.time = TL) (hub : ∀ r ∈ f, r.time ≤ TL) :
    (f.getLast hne).time = TL := by
  obtain ⟨r, hr, hrt⟩ := hmem
  have h1 : (f.getLast hne).time ≤ TL := hub _ (List.getLast_mem hne)
  have h2 : r.time ≤ (f.getLast hne).time := sorted_le_getLast hs hne r hr
  omega

/-- `setLastValue` as a map, when the last label is known. -/
lemma setLastValue_map {f : Frame} (hne : f ≠ []) (TL : ℕ)
    (hlast : (f.getLast hne).time = TL) (v : Option ℚ) :
    setLastValue f v = f.map (fun r => if r.time = TL then { r with value := v } else r) := by
  unfold setLastValue
  rw [List.getLast?_eq_getLast f hne]
  dsimp only
  rw [hlast]


/-- `getD` inside the range is a member. -/
lemma getD_mem {α : Type} (l : List α) (i : Nat) (d : α) (h : i < l.length) :
    l.getD i d ∈ l := by
  rw [List.getD_eq_get l d h]
  exact List.get_mem l i h

/-- `due_date` has one entry per check except the last. -/
lemma dueDates_length (ctimes : List ℕ) (mi : Nat) (der : Bool) :
    (dueDates ctimes mi der).length = ctimes.length - 1 := by
  unfold dueDates
  split <;> simp

/-- The `due_date` formula: check time plus interval, optionally day-ceiled. -/
lemma dueDates_getD (ctimes : List ℕ) (mi : Nat) (der : Bool) (i : Nat)
    (h : i + 1 < ctimes.length) :
    (dueDates ctimes mi der).getD i 0 =
      if der then ceilDay (ctimes.getD i 0 + mi) else ctimes.getD i 0 + mi := by
  have h0 : ((ctimes.map (· + mi)).dropLast).getD i 0 = ctimes.getD i 0 + mi := by
    rw [getD_dropLast_of_lt _ _ _ (by simpa using h), getD_map_of_lt _ _ _ _ 0 (by omega)]
  unfold dueDates
  split
  · rw [getD_map_of_lt _ _ _ _ 0 (by simp; omega), h0]
  · rw [h0]

/-- Length of the overdue mask. -/
lemma overdueMask_length (due ctimes : List ℕ) (graded : List (Option ℚ)) (dqc : ℚ) :
    (overdueMask due ctimes graded dqc).length =
      min (min due.length (ctimes.length - 1)) graded.length := by
  simp [overdueMask]

/-- Entrywise reading of the overdue mask. -/
lemma overdueMask_getD (due ctimes : List ℕ) (graded : List (Option ℚ)) (dqc : ℚ)
    (j : Nat) (h1 : j < due.length) (h2 : j + 1 < ctimes.length) (h3 : j < graded.length) :
    (overdueMask due ctimes graded dqc).getD j false =
      (decide (due.getD j 0 < ctimes.getD (j+1) 0) && nanGt (graded.getD j none) dqc) := by
  unfold overdueMask
  rw [getD_map_of_lt _ _ j false ((0, 0), none)
    (by simp [List.length_zip, List.length_drop]; omega)]
  rw [getD_zip_of_lt _ _ j (0, 0) none
    (by simp [List.length_zip, List.length_drop]; omega) h3]
  rw [getD_zip_of_lt _ _ j 0 0 h1 (by simp [List.length_drop]; omega)]
  rw [getD_drop]
  rw [Nat.add_comm 1 j]

/-- Membership in the overdue `due_date` selection, by position. -/
lemma mem_unvalidatedTimes {due : List ℕ} {mask : List Bool} {t : ℕ} :
    t ∈ unvalidatedTimes due mask ↔
      ∃ j, j < due.length ∧ j < mask.length ∧ due.getD j 0 = t ∧
        mask.getD j false = true := by
  unfold unvalidatedTimes
  constructor
  · intro ht
    obtain ⟨q, hq, hqt⟩ := List.mem_map.mp ht
    obtain ⟨hqz, hq2⟩ := List.mem_filter.mp hq
    obtain ⟨j, hj⟩ := List.mem_iff_get.mp hqz
    have hj1 : j.1 < due.length := by
      have := j.2
      simp [List.length_zip] at this
      omega
    have hj2 : j.1 < mask.length := by
      have := j.2
      simp [List.length_zip] at this
      omega
    have hq0 : (due.getD j.1 0, mask.getD j.1 false) = q := by
      rw [← getD_zip_of_lt due mask j.1 0 false hj1 hj2, List.getD_eq_get _ _ j.2]
      exact hj
    refine ⟨j.1, hj1, hj2, ?_, ?_⟩
    · rw [← hqt]
      exact congrArg Prod.fst hq0
    · have := congrArg Prod.snd hq0
      dsimp at this
      rw [this]
      simpa using hq2
  · rintro ⟨j, hj1, hj2, hjt, hjm⟩
    have hmem : (due.getD j 0, mask.getD j false) ∈ due.zip mask := by
      rw [← getD_zip_of_lt due mask j 0 false hj1 hj2]
      exact getD_mem _ j _ (by simp [List.length_zip]; omega)
    exact List.mem_map.mpr ⟨(due.getD j 0, mask.getD j false),
      List.mem_filter.mpr ⟨hmem, hjm⟩, hjt⟩

/-- Every `OOV` row carries the downgraded grade and an overdue due date. -/
lemma oovRows_mem {unval ctimes : List ℕ} {dqc : ℚ} {r : Row}
    (h : r ∈ oovRows unval ctimes dqc) :
    r.time ∈ unval ∧ r.value = some dqc ∧ r.code = some "OOV" := by
  unfold oovRows at h
  obtain ⟨q, hq, hqr⟩ := List.mem_map.mp h
  obtain ⟨j, hj⟩ := List.mem_iff_get.mp hq
  have hlen : j.1 < unval.length := by
    have := j.2
    simpa [List.enum_length] using this
  have hq2 : (j.1, unval.getD j.1 0) = q := by
    rw [← getD_enum_of_lt unval j.1 0 hlen, List.getD_eq_get _ _ j.2]
    exact hj
  rw [← hq2] at hqr
  refine ⟨?_, ?_, ?_⟩
  · rw [← hqr]
    exact getD_mem unval j.1 0 hlen
  · rw [← hqr]
  · rw [← hqr]

/-- Every overdue due date receives an `OOV` row. -/
lemma oovRows_mem_of {unval ctimes : List ℕ} {dqc : ℚ} {t : ℕ} (h : t ∈ unval) :
    ∃ r ∈ oovRows unval ctimes dqc,
      r.time = t ∧ r.value = some dqc ∧ r.code = some "OOV" := by
  obtain ⟨j, hj⟩ := List.mem_iff_get.mp h
  have henum : (j.1, t) ∈ unval.enum := by
    have hget : unval.enum.get ⟨j.1, by simpa [List.enum_length] using j.2⟩ = (j.1, t) := by
      rw [List.get_eq_getElem]
      simp only [List.getElem_enum]
      rw [← hj, List.get_eq_getElem]
    rw [← hget]
    exact List.get_mem _ _ _
  exact ⟨_, List.mem_map_of_mem _ henum, rfl, rfl, rfl⟩

/-- Unfolding of `single_downgrade_out_of_validation` once the grade lookup
succeeds. -/
lemma single_downgrade_eq {qc : Frame} {checks : Checks} {mi : Nat} {dqc : ℚ}
    {der : Bool} {gs : List (Option ℚ)}
    (hloc : locValues qc ((checks.map Prod.fst).dropLast) = .ok gs) :
    single_downgrade_out_of_validation qc checks mi dqc der =
      .ok (setLastValue
        (if (oovRows
              (unvalidatedTimes (dueDates (checks.map Prod.fst) mi der)
                (overdueMask (dueDates (checks.map Prod.fst) mi der)
                  (checks.map Prod.fst) gs dqc))
              (checks.map Prod.fst) dqc).isEmpty
         then qc
         else sortFrame (qc ++ oovRows
              (unvalidatedTimes (dueDates (checks.map Prod.fst) mi der)
                (overdueMask (dueDates (checks.map Prod.fst) mi der)
                  (checks.map Prod.fst) gs dqc))
              (checks.map Prod.fst) dqc))
        (some 0)) := by
  simp only [single_downgrade_out_of_validation]
  rw [hloc]
  rfl


/-- Positions into a duplicate-free list are determined by the entries. -/
lemma nodup_getD_inj {α : Type} {l : List α} (h : l.Nodup) (d : α) {i j : Nat}
    (hi : i < l.length) (hj : j < l.length) (he : l.getD i d = l.getD j d) :
    i = j := by
  rw [List.getD_eq_get l d hi, List.getD_eq_get l d hj] at he
  have h2 := List.nodup_iff_injective_get.mp h he
  exact congrArg Fin.val h2

/-- Claim C8: for a single downgrade rule `(max_interval, downgraded_grade)`
applied to a sorted, duplicate-free QC frame whose labels include every check
time but the last and extend to the last check: the due date of period `i` is
`check_time[i] + max_interval`, day-ceiled exactly when day-end rounding is
on; an `OOV` record carrying `downgraded_grade` appears at `due_date[i]` if
and only if `due_date[i] < check_time[i+1]` and the recorded grade at
`check_time[i]` exceeds `downgraded_grade`; every pre-existing record except
the final one survives unchanged; and the final record is forced to grade 0. -/
theorem claim_C8_single_downgrade (qc : Frame) (checks : Checks)
    (mi : Nat) (dqc : ℚ) (der : Bool)
    (hqcne : qc ≠ [])
    (hsorted : qc.Sorted rowLe)
    (hnodup : (qc.map Row.time).Nodup)
    (hpres : ∀ t ∈ (checks.map Prod.fst).dropLast, ∃ r ∈ qc, r.time = t)
    (hckle : ∀ c ∈ checks, c.1 ≤ (qc.getLast hqcne).time)
    (hdist : (dueDates (checks.map Prod.fst) mi der).Nodup)
    (hNoOOV : ∀ r ∈ qc, r.code ≠ some "OOV")
    (hdqc : 0 < dqc) :
    ∃ f, single_downgrade_out_of_validation qc checks mi dqc der = .ok f ∧
      (∀ i, i + 1 < checks.length →
        (dueDates (checks.map Prod.fst) mi der).getD i 0 =
          if der then ceilDay ((checks.map Prod.fst).getD i 0 + mi)
          else (checks.map Prod.fst).getD i 0 + mi) ∧
      (∀ i, i + 1 < checks.length →
        ((∃ r ∈ f, r.time = (dueDates (checks.map Prod.fst) mi der).getD i 0 ∧
            r.value = some dqc ∧ r.code = some "OOV") ↔
          ((dueDates (checks.map Prod.fst) mi der).getD i 0 <
              (checks.map Prod.fst).getD (i+1) 0 ∧
            ∃ r0 ∈ qc, r0.time = (checks.map Prod.fst).getD i 0 ∧
              nanGt r0.value dqc = true))) ∧
      (∀ r ∈ qc, r.time ≠ (qc.getLast hqcne).time → r ∈ f) ∧
      (∀ r ∈ f, r.time = (qc.getLast hqcne).time → r.value = some 0) ∧
      (∃ r ∈ f, r.time = (qc.getLast hqcne).time) := by
  obtain ⟨gs, hgs, hgslen, hpt⟩ := locValues_ok ((checks.map Prod.fst).dropLast) hpres
  have hctlen : (checks.map Prod.fst).length = checks.length := List.length_map _ _
  have hgslen2 : gs.length = checks.length - 1 := by
    rw [hgslen, List.length_dropLast, hctlen]
  set TL := (qc.getLast hqcne).time with hTL
  set due := dueDates (checks.map Prod.fst) mi der with hdue_def
  set msk := overdueMask due (checks.map Prod.fst) gs dqc with hmsk_def
  set unval := unvalidatedTimes due msk with hunval_def
  set D := oovRows unval (checks.map Prod.fst) dqc with hD_def
  set Q := if D.isEmpty then qc else sortFrame (qc ++ D) with hQ_def
  have hduelen : due.length = checks.length - 1 := by
    rw [hdue_def, dueDates_length, hctlen]
  have hmsklen : msk.length = checks.length - 1 := by
    rw [hmsk_def, overdueMask_length, hduelen, hctlen, hgslen2]
    omega
  have heq := @single_downgrade_eq qc checks mi dqc der gs hgs
  rw [← hdue_def, ← hmsk_def, ← hunval_def, ← hD_def, ← hQ_def] at heq
  have hmask : ∀ i, i + 1 < checks.length →
      (msk.getD i false = true ↔
        (due.getD i 0 < (checks.map Prod.fst).getD (i+1) 0 ∧
          ∃ r0 ∈ qc, r0.time = (checks.map Prod.fst).getD i 0 ∧
            nanGt r0.value dqc = true)) := by
    intro i hi
    rw [hmsk_def, overdueMask_getD due (checks.map Prod.fst) gs dqc i
      (by rw [hduelen]; omega) (by simpa using hi) (by rw [hgslen2]; omega)]
    rw [Bool.and_eq_true, decide_eq_true_eq]
    constructor
    · rintro ⟨hlt, hgt⟩
      obtain ⟨r1, hr1, hrt1, hval1⟩ := hpt i
        (by rw [List.length_dropLast, hctlen]; omega)
      refine ⟨hlt, r1, hr1, ?_, ?_⟩
      · rw [hrt1, getD_dropLast_of_lt _ _ _ (by simpa using hi)]
      · rw [← hval1]
        exact hgt
    · rintro ⟨hlt, r0, hr0, hrt0, hgt⟩
      refine ⟨hlt, ?_⟩
      obtain ⟨r1, hr1, hrt1, hval1⟩ := hpt i
        (by rw [List.length_dropLast, hctlen]; omega)
      have he : r0 = r1 := frame_row_unique hnodup hr0 hr1
        (by
          rw [hrt0, hrt1]
          exact (getD_dropLast_of_lt _ _ _ (by simpa using hi)).symm)
      rw [hval1, ← he]
      exact hgt
  have hctle : ∀ k, k < checks.length → (checks.map Prod.fst).getD k 0 ≤ TL := by
    intro k hk
    rw [getD_map_of_lt Prod.fst checks k 0 (0, 0) hk]
    exact hckle _ (getD_mem checks k (0, 0) hk)
  have hunval2 : ∀ t, t ∈ unval ↔
      ∃ j, j + 1 < checks.length ∧ due.getD j 0 = t ∧ msk.getD j false = true := by
    intro t
    rw [hunval_def, mem_unvalidatedTimes]
    constructor
    · rintro ⟨j, hj1, hj2, ht, hm⟩
      rw [hduelen] at hj1
      exact ⟨j, by omega, ht, hm⟩
    · rintro ⟨j, hj, ht, hm⟩
      exact ⟨j, by rw [hduelen]; omega, by rw [hmsklen]; omega, ht, hm⟩
  have hqcle : ∀ r ∈ qc, r.time ≤ TL := sorted_le_getLast hsorted hqcne
  have hDlt : ∀ r ∈ D, r.time < TL := by
    intro r hr
    rw [hD_def] at hr
    obtain ⟨htm, _, _⟩ := oovRows_mem hr
    obtain ⟨j, hj, hjt, hjm⟩ := (hunval2 r.time).mp htm
    have h1 := ((hmask j hj).mp hjm).1
    have h2 := hctle (j+1) hj
    omega
  have hQmem : ∀ r : Row, r ∈ Q ↔ r ∈ qc ∨ r ∈ D := by
    intro r
    by_cases hDe : D.isEmpty
    · have hDnil : D = [] := List.isEmpty_iff.mp hDe
      rw [hQ_def, if_pos hDe, hDnil]
      simp
    · rw [hQ_def, if_neg hDe, mem_sortFrame, List.mem_append]
  have hQsorted : Q.Sorted rowLe := by
    by_cases hDe : D.isEmpty
    · rw [hQ_def, if_pos hDe]
      exact hsorted
    · rw [hQ_def, if_neg hDe]
      exact sortFrame_sorted _
  have hlastQmem : qc.getLast hqcne ∈ Q := (hQmem _).mpr (Or.inl (List.getLast_mem hqcne))
  have hQne : Q ≠ [] := List.ne_nil_of_mem hlastQmem
  have hQle : ∀ r ∈ Q, r.time ≤ TL := by
    intro r hr
    rcases (hQmem r).mp hr with h | h
    · exact hqcle r h
    · exact le_of_lt (hDlt r h)
  have hlastQ : (Q.getLast hQne).time = TL :=
    getLast_time_eq hQsorted hQne TL ⟨qc.getLast hqcne, hlastQmem, rfl⟩ hQle
  have hfmap := setLastValue_map hQne TL hlastQ (some 0)
  refine ⟨setLastValue Q (some 0), heq, ?_, ?_, ?_, ?_, ?_⟩
  · intro i hi
    rw [hdue_def]
    exact dueDates_getD _ mi der i (by simpa using hi)
  · intro i hi
    constructor
    · rintro ⟨r, hr, hrt, hrv, hrc⟩
      rw [hfmap] at hr
      obtain ⟨r0, hr0, hgr⟩ := List.mem_map.mp hr
      by_cases h0 : r0.time = TL
      · exfalso
        have hv0 : r.value = some 0 := by
          rw [← hgr]
          simp [h0]
        rw [hrv] at hv0
        exact absurd (Option.some.inj hv0) hdqc.ne'
      · have hrr0 : r = r0 := by
          rw [← hgr]
          simp [h0]
        rw [hrr0] at hrt hrv hrc
        rcases (hQmem r0).mp hr0 with hqc0 | hD0
        · exact absurd hrc (hNoOOV r0 hqc0)
        · rw [hD_def] at hD0
          obtain ⟨htm, _, _⟩ := oovRows_mem hD0
          obtain ⟨j, hj, hjt, hjm⟩ := (hunval2 r0.time).mp htm
          have hji : j = i := nodup_getD_inj hdist 0
            (by rw [hduelen]; omega) (by rw [hduelen]; omega)
            (by rw [hjt, hrt])
          rw [hji] at hjm
          exact (hmask i hi).mp hjm
    · rintro ⟨hlt, r0, hr0, hrt0, hgt⟩
      have hm : msk.getD i false = true := (hmask i hi).mpr ⟨hlt, r0, hr0, hrt0, hgt⟩
      have htm : due.getD i 0 ∈ unval := (hunval2 _).mpr ⟨i, hi, rfl, hm⟩
      obtain ⟨r, hrD, hrt, hrv, hrc⟩ :=
        @oovRows_mem_of unval (checks.map Prod.fst) dqc _ htm
      have hrQ : r ∈ Q := (hQmem r).mpr (Or.inr (by rw [hD_def]; exact hrD))
      have hlt2 : r.time < TL := by
        have := hctle (i+1) hi
        omega
      refine ⟨r, ?_, hrt, hrv, hrc⟩
      rw [hfmap]
      exact List.mem_map.mpr ⟨r, hrQ, by simp [ne_of_lt hlt2]⟩
  · intro r hr hne
    rw [hfmap]
    exact List.mem_map.mpr ⟨r, (hQmem r).mpr (Or.inl hr), by simp [hne]⟩
  · intro r hr hrt
    rw [hfmap] at hr
    obtain ⟨r0, hr0, hgr⟩ := List.mem_map.mp hr
    by_cases h0 : r0.time = TL
    · rw [← hgr]
      simp [h0]
    · have hrr0 : r = r0 := by
        rw [← hgr]
        simp [h0]
      exact absurd (hrr0 ▸ hrt) h0
  · refine ⟨{ qc.getLast hqcne with value := some 0 }, ?_, rfl⟩
    rw [hfmap]
    refine List.mem_map.mpr ⟨qc.getLast hqcne, hlastQmem, ?_⟩
    rw [if_pos hTL.symm]


/-- Witness for C8: a two-check frame whose first period is 120 days overdue
gains an `OOV` record at the ceiled due date and the last record is forced to
grade 0. -/
theorem claim_C8_witness :
    ∃ f, single_downgrade_out_of_validation ([⟨0, some 600, none, none⟩, ⟨13000000, some 0, none, none⟩] : Frame) ([(0, 10), (13000000, 10)] : Checks) 10368000 400 true = .ok f ∧
      (∀ i, i + 1 < (([(0, 10), (13000000, 10)] : Checks)).length →
        (dueDates ((([(0, 10), (13000000, 10)] : Checks)).map Prod.fst) 10368000 true).getD i 0 =
          if true then ceilDay (((([(0, 10), (13000000, 10)] : Checks)).map Prod.fst).getD i 0 + 10368000)
          else ((([(0, 10), (13000000, 10)] : Checks)).map Prod.fst).getD i 0 + 10368000) ∧
      (∀ i, i + 1 < (([(0, 10), (13000000, 10)] : Checks)).length →
        ((∃ r ∈ f, r.time = (dueDates ((([(0, 10), (13000000, 10)] : Checks)).map Prod.fst) 10368000 true).getD i 0 ∧
            r.value = some 400 ∧ r.code = some "OOV") ↔
          ((dueDates ((([(0, 10), (13000000, 10)] : Checks)).map Prod.fst) 10368000 true).getD i 0 <
              ((([(0, 10), (13000000, 10)] : Checks)).map Prod.fst).getD (i+1) 0 ∧
            ∃ r0 ∈ ([⟨0, some 600, none, none⟩, ⟨13000000, some 0, none, none⟩] : Frame), r0.time = ((([(0, 10), (13000000, 10)] : Checks)).map Prod.fst).getD i 0 ∧
              nanGt r0.value 400 = true))) ∧
      (∀ r ∈ ([⟨0, some 600, none, none⟩, ⟨13000000, some 0, none, none⟩] : Frame),
        r.time ≠ ((([⟨0, some 600, none, none⟩, ⟨13000000, some 0, none, none⟩] : Frame)).getLast (List.cons_ne_nil _ _)).time → r ∈ f) ∧
      (∀ r ∈ f,
        r.time = ((([⟨0, some 600, none, none⟩, ⟨13000000, some 0, none, none⟩] : Frame)).getLast (List.cons_ne_nil _ _)).time → r.value = some 0) ∧
      (∃ r ∈ f, r.time = ((([⟨0, some 600, none, none⟩, ⟨13000000, some 0, none, none⟩] : Frame)).getLast (List.cons_ne_nil _ _)).time) :=
  claim_C8_single_downgrade ([⟨0, some 600, none, none⟩, ⟨13000000, some 0, none, none⟩] : Frame) ([(0, 10), (13000000, 10)] : Checks) 10368000 400 true
    (List.cons_ne_nil _ _) (by decide) (by decide) (by decide) (by decide)
    (by decide) (by decide) (by decide)


/-! ### The final-record invariant (claim C4) -/

/-- Destructuring a successful `Except` bind. -/
lemma bind_ok_iff {α β : Type} (x : Except String α) (k : α → Except String β) (b : β) :
    (x >>= k) = .ok b ↔ ∃ a, x = .ok a ∧ k a = .ok b := by
  cases x with
  | error e =>
    constructor
    · intro h
      exact Except.noConfusion h
    · rintro ⟨a, ha, hk⟩
      exact Except.noConfusion ha
  | ok a =>
    constructor
    · intro h
      exact ⟨a, rfl, h⟩
    · rintro ⟨a2, ha, hk⟩
      rw [← Except.ok.inj ha] at hk
      exact hk

/-- `stdTime` inside the range is the positional timestamp. -/
lemma stdTime_eq (std : Series) (i : Nat) (h : i < std.length) :
    stdTime std i = (std.get ⟨i, h⟩).1 := by
  unfold stdTime
  rw [List.get?_eq_get h]
  rfl

/-- On a series with strictly ascending timestamps, `stdTime` is strictly
monotone in the position. -/
lemma stdTime_strictMono (std : Series)
    (hmono : (std.map Prod.fst).Pairwise (· < ·)) {i j : Nat}
    (hij : i < j) (hj : j < std.length) : stdTime std i < stdTime std j := by
  rw [stdTime_eq std i (by omega), stdTime_eq std j hj]
  have h2 := List.pairwise_iff_get.mp hmono
    ⟨i, by rw [List.length_map]; omega⟩ ⟨j, by rw [List.length_map]; omega⟩
    (Fin.mk_lt_mk.mpr hij)
  rw [List.get_map, List.get_map] at h2
  exact h2

/-- Rows of a `.loc` row assignment: the new row or an original one. -/
lemma locSetRow_mem_elim {f : Frame} {r x : Row} (h : x ∈ locSetRow f r) :
    x = r ∨ x ∈ f := by
  unfold locSetRow at h
  split at h
  · obtain ⟨x0, hx0, hxe⟩ := List.mem_map.mp h
    by_cases he : x0.time = r.time
    · left
      rw [← hxe, if_pos he]
    · right
      rw [← hxe, if_neg he]
      exact hx0
  · rcases List.mem_append.mp h with h1 | h1
    · right
      exact h1
    · left
      simpa using h1

/-- A row whose label differs from the assigned one survives a `.loc` row
assignment. -/
lemma locSetRow_mem_of_ne {f : Frame} {r x : Row} (hx : x ∈ f)
    (hne : x.time ≠ r.time) : x ∈ locSetRow f r := by
  unfold locSetRow
  split
  · exact List.mem_map.mpr ⟨x, hx, by rw [if_neg hne]⟩
  · exact List.mem_append.mpr (Or.inl hx)

/-- `.loc` row assignment below `T` preserves the tail invariant: labels stay
at most `T`, the label `T` stays present, and rows labelled `T` keep grade 0. -/
lemma locSetRow_inv {f : Frame} {r : Row} {T : ℕ} (hrT : r.time < T)
    (hle : ∀ x ∈ f, x.time ≤ T) (hmem : ∃ x ∈ f, x.time = T)
    (hval : ∀ x ∈ f, x.time = T → x.value = some 0) :
    (∀ x ∈ locSetRow f r, x.time ≤ T) ∧ (∃ x ∈ locSetRow f r, x.time = T) ∧
      (∀ x ∈ locSetRow f r, x.time = T → x.value = some 0) := by
  refine ⟨?_, ?_, ?_⟩
  · intro x hx
    rcases locSetRow_mem_elim hx with he | hm
    · rw [he]
      omega
    · exact hle x hm
  · obtain ⟨x0, hx0, hx0t⟩ := hmem
    exact ⟨x0, locSetRow_mem_of_ne hx0 (by omega), hx0t⟩
  · intro x hx hxt
    rcases locSetRow_mem_elim hx with he | hm
    · rw [he] at hxt
      omega
    · exact hval x hm hxt


/-- One successful gap iteration preserves the tail invariant, provided every
long gap ends strictly before the tail timestamp `T`. -/
lemma processGap_preserves (std : Series) (gl T : ℕ)
    (hmono : (std.map Prod.fst).Pairwise (· < ·))
    {qc0 qc1 : Frame} {g : Nat × Nat × Bool}
    (hsuc : processGap std gl qc0 g = .ok qc1)
    (hgapT : gl < g.2.1 → g.1 + g.2.1 < std.length → stdTime std (g.1 + g.2.1) < T)
    (hle : ∀ x ∈ qc0, x.time ≤ T) (hmem : ∃ x ∈ qc0, x.time = T)
    (hval : ∀ x ∈ qc0, x.time = T → x.value = some 0) :
    (∀ x ∈ qc1, x.time ≤ T) ∧ (∃ x ∈ qc1, x.time = T) ∧
      (∀ x ∈ qc1, x.time = T → x.value = some 0) := by
  simp only [processGap] at hsuc
  by_cases hgl : gl < g.2.1
  · simp only [if_pos hgl] at hsuc
    by_cases hend : g.1 + g.2.1 < std.length
    · simp only [if_pos hend] at hsuc
      have hrt : stdTime std (g.1 + g.2.1) < T := hgapT hgl hend
      have hgs : stdTime std g.1 < T :=
        lt_trans (stdTime_strictMono std hmono (by omega) hend) hrt
      have hlig : stdTime std (g.1 + g.2.1 - 1) < T := by
        rcases Nat.lt_or_ge (g.1 + g.2.1 - 1) (g.1 + g.2.1) with hlt | hge
        · exact lt_trans (stdTime_strictMono std hmono hlt hend) hrt
        · omega
      split at hsuc
      · exact Except.noConfusion hsuc
      · rename_i pr hprev
        have hq : qc1 = sortFrame (locSetRow
            (((sortFrame (locSetRow qc0
                ⟨stdTime std (g.1 + g.2.1), pr.value, pr.code,
                  some ("End of gap. Returning to QC code assigned at "
                    ++ toString pr.time)⟩)).filter
              (fun x => !(decide (stdTime std g.1 < x.time) &&
                decide (x.time ≤ stdTime std (g.1 + g.2.1 - 1))))))
            ⟨stdTime std g.1, some 100, some "GAP",
              some ("Missing data amounting to "
                ++ toString (stdTime std (g.1 + g.2.1) - stdTime std g.1))⟩) :=
          (Except.ok.inj hsuc).symm
        subst hq
        refine ⟨?_, ?_, ?_⟩
        · intro x hx
          rw [mem_sortFrame] at hx
          rcases locSetRow_mem_elim hx with he | hm
          · rw [he]
            exact le_of_lt hgs
          · have hm2 := (List.mem_filter.mp hm).1
            rw [mem_sortFrame] at hm2
            rcases locSetRow_mem_elim hm2 with he2 | hm3
            · rw [he2]
              exact le_of_lt hrt
            · exact hle x hm3
        · obtain ⟨x0, hx0, hx0t⟩ := hmem
          refine ⟨x0, ?_, hx0t⟩
          rw [mem_sortFrame]
          apply locSetRow_mem_of_ne
          · apply List.mem_filter.mpr
            refine ⟨?_, ?_⟩
            · rw [mem_sortFrame]
              apply locSetRow_mem_of_ne hx0
              rw [hx0t]
              exact (ne_of_lt hrt).symm
            · have hnle : ¬ (x0.time ≤ stdTime std (g.1 + g.2.1 - 1)) := by omega
              simp [hnle]
          · rw [hx0t]
            exact (ne_of_lt hgs).symm
        · intro x hx hxt
          rw [mem_sortFrame] at hx
          rcases locSetRow_mem_elim hx with he | hm
          · rw [he] at hxt
            exact absurd hxt (ne_of_lt hgs)
          · have hm2 := (List.mem_filter.mp hm).1
            rw [mem_sortFrame] at hm2
            rcases locSetRow_mem_elim hm2 with he2 | hm3
            · rw [he2] at hxt
              exact absurd hxt (ne_of_lt hrt)
            · exact hval x hm3 hxt
    · simp only [if_neg hend] at hsuc
      exact Except.noConfusion hsuc
  · rw [if_neg hgl] at hsuc
    rw [← Except.ok.inj hsuc]
    exact ⟨hle, hmem, hval⟩


/-- The whole gap loop preserves the tail invariant. -/
lemma gapFold_preserves (std : Series) (gl T : ℕ)
    (hmono : (std.map Prod.fst).Pairwise (· < ·)) :
    ∀ (gs : List (Nat × Nat × Bool)) (qc0 qc1 : Frame),
      (∀ g ∈ gs, gl < g.2.1 → g.1 + g.2.1 < std.length →
        stdTime std (g.1 + g.2.1) < T) →
      gapFold std gl qc0 gs = .ok qc1 →
      (∀ x ∈ qc0, x.time ≤ T) → (∃ x ∈ qc0, x.time = T) →
      (∀ x ∈ qc0, x.time = T → x.value = some 0) →
      ((∀ x ∈ qc1, x.time ≤ T) ∧ (∃ x ∈ qc1, x.time = T) ∧
        (∀ x ∈ qc1, x.time = T → x.value = some 0)) := by
  intro gs
  induction gs with
  | nil =>
    intro qc0 qc1 _ hsuc hle hmem hval
    rw [← Except.ok.inj hsuc]
    exact ⟨hle, hmem, hval⟩
  | cons g rest ih =>
    intro qc0 qc1 hg hsuc hle hmem hval
    rw [gapFold, bind_ok_iff] at hsuc
    obtain ⟨qcm, hpg, hrest⟩ := hsuc
    obtain ⟨hle2, hmem2, hval2⟩ := processGap_preserves std gl T hmono hpg
      (hg g (List.mem_cons_self g rest)) hle hmem hval
    exact ih qcm qc1 (fun g2 hg2 => hg g2 (List.mem_cons_of_mem g hg2))
      hrest hle2 hmem2 hval2

/-- The gap fold-in stage preserves the tail invariant. -/
lemma missing_data_preserves (std : Series) (gl T : ℕ)
    (hmono : (std.map Prod.fst).Pairwise (· < ·))
    {qc0 qc1 : Frame}
    (hsuc : missing_data_quality_code std qc0 gl = .ok qc1)
    (hg : ∀ g ∈ gap_finder (std.map Prod.snd), gl < g.2.1 →
      g.1 + g.2.1 < std.length → stdTime std (g.1 + g.2.1) < T)
    (hle : ∀ x ∈ qc0, x.time ≤ T) (hmem : ∃ x ∈ qc0, x.time = T)
    (hval : ∀ x ∈ qc0, x.time = T → x.value = some 0) :
    (∀ x ∈ qc1, x.time ≤ T) ∧ (∃ x ∈ qc1, x.time = T) ∧
      (∀ x ∈ qc1, x.time = T → x.value = some 0) := by
  rw [missing_data_quality_code, bind_ok_iff] at hsuc
  obtain ⟨out, hfold, hout⟩ := hsuc
  obtain ⟨hle2, hmem2, hval2⟩ := gapFold_preserves std gl T hmono _ qc0 out hg
    hfold hle hmem hval
  have h2 : qc1 = sortFrame out := (Except.ok.inj hout).symm
  subst h2
  refine ⟨?_, ?_, ?_⟩
  · intro x hx
    exact hle2 x (mem_sortFrame.mp hx)
  · obtain ⟨x0, hx0, hx0t⟩ := hmem2
    exact ⟨x0, mem_sortFrame.mpr hx0, hx0t⟩
  · intro x hx
    exact hval2 x (mem_sortFrame.mp hx)

/-- The ceiling clamp preserves the tail invariant when the ceiling is absent
or nonnegative. -/
lemma max_qc_limiter_inv (qc : Frame) (max_qc : Option ℚ)
    (hmqc : max_qc = none ∨ ∃ m, max_qc = some m ∧ 0 ≤ m) (T : ℕ)
    (hle : ∀ x ∈ qc, x.time ≤ T) (hmem : ∃ x ∈ qc, x.time = T)
    (hval : ∀ x ∈ qc, x.time = T → x.value = some 0) :
    (∀ x ∈ max_qc_limiter qc max_qc, x.time ≤ T) ∧
      (∃ x ∈ max_qc_limiter qc max_qc, x.time = T) ∧
      (∀ x ∈ max_qc_limiter qc max_qc, x.time = T → x.value = some 0) := by
  have htime : ∀ r : Row, (clampRow max_qc r).time = r.time := by
    intro r
    unfold clampRow
    split <;> rfl
  have hvalue : ∀ r : Row, (clampRow max_qc r).value = clipUpper r.value max_qc := by
    intro r
    unfold clampRow
    split <;> rfl
  refine ⟨?_, ?_, ?_⟩
  · intro x hx
    obtain ⟨r0, hr0, he⟩ := List.mem_map.mp hx
    rw [← he, htime]
    exact hle r0 hr0
  · obtain ⟨x0, hx0, hx0t⟩ := hmem
    exact ⟨clampRow max_qc x0, List.mem_map_of_mem _ hx0, by rw [htime, hx0t]⟩
  · intro x hx hxt
    obtain ⟨r0, hr0, he⟩ := List.mem_map.mp hx
    have ht0 : r0.time = T := by
      rw [← hxt, ← he, htime]
    have hv0 : r0.value = some 0 := hval r0 hr0 ht0
    rw [← he, hvalue, hv0]
    rcases hmqc with hn | ⟨m, hm, hm0⟩
    · rw [hn]
      rfl
    · rw [hm]
      show some (min 0 m) = some 0
      rw [min_eq_left hm0]


/-- One successful downgrade pass preserves the tail invariant: the last
label stays `T`, labels stay at most `T`, and rows labelled `T` end at grade
0 (the pass itself forces the last record back to 0). -/
lemma single_downgrade_preserves {qc f : Frame} {checks : Checks} {mi : Nat}
    {dqc : ℚ} {der : Bool} (T : ℕ)
    (hsuc : single_downgrade_out_of_validation qc checks mi dqc der = .ok f)
    (hckle : ∀ ch ∈ checks, ch.1 ≤ T)
    (hlastT : ∃ rl, qc.getLast? = some rl ∧ rl.time = T)
    (hle : ∀ r ∈ qc, r.time ≤ T) :
    (∃ rl, f.getLast? = some rl ∧ rl.time = T) ∧
      (∀ r ∈ f, r.time ≤ T) ∧ (∃ r ∈ f, r.time = T) ∧
      (∀ r ∈ f, r.time = T → r.value = some 0) := by
  obtain ⟨rl, hrl, hrlT⟩ := hlastT
  have hqcne : qc ≠ [] := by
    intro hcon
    rw [hcon] at hrl
    exact Option.noConfusion hrl
  have hmemT : ∃ r ∈ qc, r.time = T := by
    refine ⟨rl, ?_, hrlT⟩
    have h1 := List.getLast?_eq_getLast qc hqcne
    rw [h1] at hrl
    rw [← Option.some.inj hrl]
    exact List.getLast_mem hqcne
  cases hgs : locValues qc ((checks.map Prod.fst).dropLast) with
  | error e =>
    simp only [single_downgrade_out_of_validation] at hsuc
    rw [hgs] at hsuc
    exact Except.noConfusion hsuc
  | ok gs =>
    rw [single_downgrade_eq hgs] at hsuc
    set due := dueDates (checks.map Prod.fst) mi der with hdue_def
    set msk := overdueMask due (checks.map Prod.fst) gs dqc with hmsk_def
    set unval := unvalidatedTimes due msk with hunval_def
    set D := oovRows unval (checks.map Prod.fst) dqc with hD_def
    set Q := if D.isEmpty then qc else sortFrame (qc ++ D) with hQ_def
    have hf : f = setLastValue Q (some 0) := (Except.ok.inj hsuc).symm
    subst hf
    have hduelen : due.length = checks.length - 1 := by
      rw [hdue_def, dueDates_length, List.length_map]
    have hDlt : ∀ r ∈ D, r.time < T := by
      intro r hr
      rw [hD_def] at hr
      obtain ⟨htm, _, _⟩ := oovRows_mem hr
      rw [hunval_def, mem_unvalidatedTimes] at htm
      obtain ⟨j, hj1, hj2, hjt, hjm⟩ := htm
      have hj3 : j + 1 < (checks.map Prod.fst).length ∧ j < gs.length := by
        rw [hmsk_def, overdueMask_length] at hj2
        omega
      rw [hmsk_def, overdueMask_getD due (checks.map Prod.fst) gs dqc j hj1
        hj3.1 hj3.2, Bool.and_eq_true, decide_eq_true_eq] at hjm
      have hjlen : j + 1 < checks.length := by
        have := hj3.1
        rw [List.length_map] at this
        exact this
      have hct : (checks.map Prod.fst).getD (j+1) 0 ≤ T := by
        rw [getD_map_of_lt Prod.fst checks (j+1) 0 (0, 0) hjlen]
        exact hckle _ (getD_mem checks (j+1) (0, 0) hjlen)
      have h5 := hjm.1
      omega
    have hQmem : ∀ r : Row, r ∈ Q ↔ r ∈ qc ∨ r ∈ D := by
      intro r
      by_cases hDe : D.isEmpty
      · have hDnil : D = [] := List.isEmpty_iff.mp hDe
        rw [hQ_def, if_pos hDe, hDnil]
        simp
      · rw [hQ_def, if_neg hDe, mem_sortFrame, List.mem_append]
    have hQle : ∀ r ∈ Q, r.time ≤ T := by
      intro r hr
      rcases (hQmem r).mp hr with h | h
      · exact hle r h
      · exact le_of_lt (hDlt r h)
    have hTQ : qc.getLast hqcne ∈ Q := (hQmem _).mpr (Or.inl (List.getLast_mem hqcne))
    have hQne : Q ≠ [] := List.ne_nil_of_mem hTQ
    have hrleq : rl = qc.getLast hqcne := by
      have h1 := List.getLast?_eq_getLast qc hqcne
      rw [h1] at hrl
      exact (Option.some.inj hrl).symm
    have hlastQ : (Q.getLast hQne).time = T := by
      by_cases hDe : D.isEmpty
      · have hq : Q = qc := by rw [hQ_def, if_pos hDe]
        have h1 : Q.getLast? = some (Q.getLast hQne) := List.getLast?_eq_getLast Q hQne
        have h3 : Q.getLast? = qc.getLast? := by rw [hq]
        have h4 : some (Q.getLast hQne) = some rl := h1.symm.trans (h3.trans hrl)
        rw [Option.some.inj h4]
        exact hrlT
      · have hsort : Q.Sorted rowLe := by
          rw [hQ_def, if_neg hDe]
          exact sortFrame_sorted _
        exact getLast_time_eq hsort hQne T
          ⟨rl, by rw [hrleq]; exact hTQ, hrlT⟩ hQle
    have hfmap := setLastValue_map hQne T hlastQ (some 0)
    have htime : ∀ r0 : Row,
        ((fun r => if r.time = T then { r with value := some 0 } else r) r0).time
          = r0.time := by
      intro r0
      by_cases h0 : r0.time = T <;> simp [h0]
    refine ⟨?_, ?_, ?_, ?_⟩
    · rw [hfmap]
      refine ⟨(fun r => if r.time = T then { r with value := some 0 } else r)
        (Q.getLast hQne), ?_, ?_⟩
      · rw [List.getLast?_map, List.getLast?_eq_getLast Q hQne]
        rfl
      · exact (htime (Q.getLast hQne)).trans hlastQ
    · intro r hr
      rw [hfmap] at hr
      obtain ⟨r0, hr0, he⟩ := List.mem_map.mp hr
      have ht : r.time = r0.time := by
        rw [← he]
        exact htime r0
      rw [ht]
      exact hQle r0 hr0
    · rw [hfmap]
      obtain ⟨rT, hrTq, hrTt⟩ := hmemT
      refine ⟨_, List.mem_map_of_mem _ ((hQmem rT).mpr (Or.inl hrTq)), ?_⟩
      exact (htime rT).trans hrTt
    · intro r hr hrt
      rw [hfmap] at hr
      obtain ⟨r0, hr0, he⟩ := List.mem_map.mp hr
      have ht : r.time = r0.time := by
        rw [← he]
        exact htime r0
      rw [ht] at hrt
      rw [← he]
      simp [hrt]

/-- The whole downgrade loop preserves the tail invariant. -/
lemma downgradeFold_preserves (checks : Checks) (der : Bool) (T : ℕ)
    (hckle : ∀ ch ∈ checks, ch.1 ≤ T) :
    ∀ (dict : List (Nat × ℚ)) (qc f : Frame),
      downgradeFold checks der qc dict = .ok f →
      (∃ rl, qc.getLast? = some rl ∧ rl.time = T) →
      (∀ r ∈ qc, r.time ≤ T) →
      (∀ r ∈ qc, r.time = T → r.value = some 0) →
      ((∃ rl, f.getLast? = some rl ∧ rl.time = T) ∧
        (∀ r ∈ f, r.time ≤ T) ∧ (∃ r ∈ f, r.time = T) ∧
        (∀ r ∈ f, r.time = T → r.value = some 0)) := by
  intro dict
  induction dict with
  | nil =>
    intro qc f hsuc h1 h2 h4
    rw [← Except.ok.inj hsuc]
    obtain ⟨rl, hrl, hrlT⟩ := h1
    have hqcne : qc ≠ [] := by
      intro hcon
      rw [hcon] at hrl
      exact Option.noConfusion hrl
    refine ⟨⟨rl, hrl, hrlT⟩, h2, ⟨rl, ?_, hrlT⟩, h4⟩
    have hl := List.getLast?_eq_getLast qc hqcne
    rw [hl] at hrl
    rw [← Option.some.inj hrl]
    exact List.getLast_mem hqcne
  | cons kv rest ih =>
    intro qc f hsuc h1 h2 h4
    rw [downgradeFold, bind_ok_iff] at hsuc
    obtain ⟨qcm, hsd, hrest⟩ := hsuc
    obtain ⟨g1, g2, g3, g4⟩ := single_downgrade_preserves T hsd hckle h1 h2
    exact ih qcm f hrest g1 g2 g4


/-- The assignment stage establishes the tail invariant: the output ends at
the last check time with grade 0, every label is at most that time, and no
other row carries that label. -/
lemma assign_preserves (p : ℕ × Option ℚ) (ps : Series) (c : ℕ × ℚ) (cs : Checks)
    (ev : Measurement) (gl : Nat) {F0 : Frame}
    (hsuc : check_data_quality_code (p :: ps) (c :: cs) ev gl = .ok F0)
    (hvalid : ∃ q ∈ p :: ps, q.2.isSome)
    (hasc : (c :: cs).Pairwise (fun a b => a.1 < b.1))
    (h0 : p.1 < c.1)
    (hck : ∀ ch ∈ c :: cs, ch.1 ≤ (ps.getLastD p).1) :
    (∃ rl, F0.getLast? = some rl ∧ rl.time = (cs.getLastD c).1) ∧
      (∀ r ∈ F0, r.time ≤ (cs.getLastD c).1) ∧
      (∀ r ∈ F0, r.time = (cs.getLastD c).1 → r.value = some 0) := by
  have hrange : ∀ ch ∈ c :: cs, p.1 ≤ ch.1 ∧ ch.1 ≤ (ps.getLastD p).1 := by
    intro ch hch
    refine ⟨?_, hck ch hch⟩
    rcases List.mem_cons.mp hch with hc | hcs
    · rw [hc]
      exact le_of_lt h0
    · exact le_of_lt (lt_trans h0 (List.rel_of_pairwise_cons hasc hcs))
  obtain ⟨rows, hrows⟩ := checkRows_ok p ps ev gl hvalid (c :: cs) hrange
  have hlastmem : cs.getLastD c ∈ c :: cs :=
    List.mem_of_mem_getLast? (getLast?_cons_eq c cs)
  have hlast : (cs.getLastD c).1 ≤ (ps.getLastD p).1 := hck _ hlastmem
  have hspec := check_data_quality_code_spec p ps c cs ev gl rows hrows hasc h0 hlast
  rw [hspec] at hsuc
  have hF : F0 = List.zipWith
      (fun cur next => Row.mk cur.time next.value next.code next.details)
      (⟨p.1, none, none, none⟩ :: rows) rows
      ++ [⟨(cs.getLastD c).1, some 0, none, none⟩] := (Except.ok.inj hsuc).symm
  subst hF
  have htimes : rows.map Row.time = (c :: cs).map Prod.fst := checkRows_times hrows
  have hts : (p.1 :: (c :: cs).map Prod.fst).Pairwise (· < ·) := by
    rw [List.pairwise_cons]
    constructor
    · intro y hy
      rw [List.mem_map] at hy
      obtain ⟨ch, hch, hyeq⟩ := hy
      rcases List.mem_cons.mp hch with hc | hcs
      · rw [← hyeq, hc]
        exact h0
      · have := List.rel_of_pairwise_cons hasc hcs
        rw [← hyeq]
        omega
    · exact List.pairwise_map.mpr hasc
  have htslast : (p.1 :: (c :: cs).map Prod.fst).getLast? =
      some ((cs.getLastD c).1) := by
    rw [getLast?_cons_eq, List.map_cons, List.getLastD_cons, getLastD_map]
  have hmapts : ((⟨p.1, none, none, none⟩ : Row) :: rows).map Row.time =
      p.1 :: (c :: cs).map Prod.fst := by
    rw [List.map_cons, htimes]
  have hzw := zipWith_time_lt ⟨p.1, none, none, none⟩ rows
    (p.1 :: (c :: cs).map Prod.fst) hmapts hts ((cs.getLastD c).1) htslast
  refine ⟨?_, ?_, ?_⟩
  · exact ⟨⟨(cs.getLastD c).1, some 0, none, none⟩, List.getLast?_concat _, rfl⟩
  · intro r hr
    rcases List.mem_append.mp hr with hA | hb
    · exact le_of_lt (hzw r hA)
    · rw [List.mem_singleton] at hb
      rw [hb]
  · intro r hr hrt
    rcases List.mem_append.mp hr with hA | hb
    · exact absurd hrt (ne_of_lt (hzw r hA))
    · rw [List.mem_singleton] at hb
      rw [hb]

/-- Claim C4, amended: when every long gap of the logged series ends strictly
before the last check time and the site ceiling is absent or nonnegative, the
record with the largest timestamp of the returned quality series is at the
last check time and carries grade 0.  (Without the gap condition the claim
fails: a long gap reaching past the last check re-appends the restored grade
after the forced zero, see the counterexample.) -/
theorem claim_C4_final_record
    (p : ℕ × Option ℚ) (ps : Series) (c : ℕ × ℚ) (cs : Checks) (ev : Measurement)
    (gl : ℕ) (max_qc : Option ℚ) (dict : List (Nat × ℚ)) (F : Frame)
    (hvalid : ∃ q ∈ p :: ps, q.2.isSome)
    (hasc : (c :: cs).Pairwise (fun a b => a.1 < b.1))
    (h0 : p.1 < c.1)
    (hck : ∀ ch ∈ c :: cs, ch.1 ≤ (ps.getLastD p).1)
    (hbasc : ((p :: ps).map Prod.fst).Pairwise (· < ·))
    (hgap : ∀ g ∈ gap_finder ((p :: ps).map Prod.snd), gl < g.2.1 →
      g.1 + g.2.1 < (p :: ps).length →
      stdTime (p :: ps) (g.1 + g.2.1) < (cs.getLastD c).1)
    (hmqc : max_qc = none ∨ ∃ m, max_qc = some m ∧ 0 ≤ m)
    (hsuc : quality_encoder (p :: ps) (c :: cs) ev gl max_qc dict = .ok F) :
    (∃ r ∈ F, r.time = (cs.getLastD c).1) ∧
      (∀ r ∈ F, r.time ≤ (cs.getLastD c).1) ∧
      (∀ r ∈ F, r.time = (cs.getLastD c).1 → r.value = some 0) := by
  simp only [quality_encoder] at hsuc
  rw [bind_ok_iff] at hsuc
  obtain ⟨F0, h1, hsuc⟩ := hsuc
  rw [bind_ok_iff] at hsuc
  obtain ⟨F1, h2, hsuc⟩ := hsuc
  rw [bind_ok_iff] at hsuc
  obtain ⟨F2, h3, hsuc⟩ := hsuc
  have hF : F = max_qc_limiter F2 max_qc := (Except.ok.inj hsuc).symm
  subst hF
  have hckle : ∀ ch ∈ c :: cs, ch.1 ≤ (cs.getLastD c).1 := by
    intro ch hch
    have hp : (c.1 :: cs.map Prod.fst).Pairwise (· < ·) := by
      rw [← List.map_cons]
      exact List.pairwise_map.mpr hasc
    have hx : ch.1 ∈ c.1 :: cs.map Prod.fst := by
      rw [← List.map_cons]
      exact List.mem_map_of_mem Prod.fst hch
    have hle := mem_le_getLastD hp ch.1 hx
    rw [getLastD_map] at hle
    exact hle
  obtain ⟨a1, a2, a3⟩ := assign_preserves p ps c cs ev 10800 h1 hvalid hasc h0 hck
  obtain ⟨g1, g2, g3, g4⟩ := downgradeFold_preserves (c :: cs) true
    ((cs.getLastD c).1) hckle dict F0 F1 h2 a1 a2 a3
  obtain ⟨m1, m2, m3⟩ := missing_data_preserves (p :: ps) gl ((cs.getLastD c).1)
    hbasc h3 hgap g2 g3 g4
  obtain ⟨c1, c2, c3⟩ := max_qc_limiter_inv F2 max_qc hmqc ((cs.getLastD c).1)
    m1 m2 m3
  exact ⟨c2, c1, c3⟩


unseal Rat.sub Rat.add Rat.mul in
/-- Counterexample to C4 as stated: on a logged series whose long gap runs to
the record after the last check, `quality_encoder` succeeds but the record
with the largest timestamp (4500) carries the restored grade 600, not 0 — the
gap fold-in runs after the downgrade pass and re-raises the forced zero. -/
theorem claim_C4_counterexample :
    ∃ F, quality_encoder
        [(0, some 10), (900, some 10), (1800, some 10), (2700, none),
          (3600, none), (4500, some 10)]
        [(900, 10)] ⟨5, 1⟩ 1 none [] = .ok F ∧
      (∀ r ∈ F, r.time ≤ 4500) ∧ (∃ r ∈ F, r.time = 4500) ∧
      (∀ r ∈ F, r.time = 4500 → r.value = some 600) ∧
      ¬ (∀ r ∈ F, r.time = 4500 → r.value = some 0) :=
  ⟨[⟨0, some 600, some "CHK",
      some "Check value at 900 used to validate data value at 900."⟩,
    ⟨900, some 0, none, none⟩,
    ⟨2700, some 100, some "GAP", some "Missing data amounting to 1800"⟩,
    ⟨4500, some 600, some "CHK",
      some "End of gap. Returning to QC code assigned at 0"⟩],
   by decide, by decide, by decide, by decide, by decide⟩

unseal Rat.sub Rat.add Rat.mul in
/-- Witness for the amended C4: a series whose long gap ends before the last
check; the full pipeline succeeds and its largest-timestamp record, at the
last check time 3600, carries grade 0. -/
theorem claim_C4_witness :
    ∃ F, quality_encoder
        [(0, some 10), (900, none), (1800, none), (2700, some 10), (3600, some 10)]
        [(3600, 10)] ⟨5, 1⟩ 1 none [(10368000, 400)] = .ok F ∧
      (∃ r ∈ F, r.time = 3600) ∧ (∀ r ∈ F, r.time ≤ 3600) ∧
      (∀ r ∈ F, r.time = 3600 → r.value = some 0) :=
  ⟨[⟨0, some 600, some "CHK",
      some "Check value at 3600 used to validate data value at 3600."⟩,
    ⟨900, some 100, some "GAP", some "Missing data amounting to 1800"⟩,
    ⟨2700, some 600, some "CHK",
      some "End of gap. Returning to QC code assigned at 0"⟩,
    ⟨3600, some 0, none, none⟩],
   by decide,
   claim_C4_final_record (0, some 10)
     [(900, none), (1800, none), (2700, some 10), (3600, some 10)]
     (3600, 10) [] ⟨5, 1⟩ 1 none [(10368000, 400)]
     [⟨0, some 600, some "CHK",
        some "Check value at 3600 used to validate data value at 3600."⟩,
      ⟨900, some 100, some "GAP", some "Missing data amounting to 1800"⟩,
      ⟨2700, some 600, some "CHK",
        some "End of gap. Returning to QC code assigned at 0"⟩,
      ⟨3600, some 0, none, none⟩]
     (by decide) (by decide) (by decide) (by decide) (by decide) (by decide)
     (Or.inl rfl) (by decide)⟩

end Hydrobot
